import Mathlib

/-!
Verification of the caching DNS resolver (packages dnscache and dnsresolver).

The development shallowly embeds the data model and the operations of the
caching resolver core: the DNS message model, the LRU-list plus map cache
store (cache.go, cache_list.go), TTL adjustment, record reordering, the
negative-response classifier, the top-level Resolve composition and the
packing stage of the packet resolver (resolver.go).

Conventions of the embedding:
* machine integers become Nat (uint32/uint16 values) or Int (int64
  nanosecond instants and durations); the one place where a uint32
  conversion can matter is modelled with an explicit `% 2^32`;
* Go slices of resources become Lean lists; copying a slice of structs
  (`append([]Resource(nil), s...)`) is the identity on the list of values;
* the intrusive doubly-linked LRU list of cache_list.go is modelled as the
  sequence of entry identities it links, front first; entries themselves
  live in an allocation table indexed by identity, which plays the role of
  the Go heap (the map stores identities, as the Go map stores pointers);
* the pseudo-random generator is not modelled: `rnd.Shuffle` is abstracted
  by an explicit function parameter, while rotation is deterministic and is
  translated exactly.
-/

/-! ## DNS message data model (package dnsmessage, modelled from the spec §3) -/

/-- Modelled from the spec: dnsmessage SOAResource body
(`SOA{ns, serial, refresh, retry, expire, min_ttl}`). Domain names are
abstracted as numeric codes (the cache compares them byte-exactly). -/
structure SOAData where
  soaNS : Nat
  serial : Nat
  refresh : Nat
  retry : Nat
  expire : Nat
  minTTL : Nat
deriving DecidableEq, Repr, Inhabited

/-- Modelled from the spec: dnsmessage resource bodies, a tagged variant.
Only the SOA variant is inspected by the cache; the others carry opaque
payloads. -/
inductive ResourceBody where
  | a (ip : List Nat)
  | aaaa (ip : List Nat)
  | cname (nm : Nat)
  | soa (d : SOAData)
  | mx (nm : Nat)
  | nsb (nm : Nat)
  | txt (payload : List Nat)
deriving DecidableEq, Repr, Inhabited

/-- Modelled from the spec: dnsmessage ResourceHeader
(`{name, type, class, ttl: u32 seconds}`). -/
structure ResourceHeader where
  name : Nat
  rtype : Nat
  rclass : Nat
  ttl : Nat
deriving DecidableEq, Repr, Inhabited

/-- Modelled from the spec: dnsmessage Resource (header plus body). -/
structure Resource where
  header : ResourceHeader
  body : ResourceBody
deriving DecidableEq, Repr, Inhabited

/-- Modelled from the spec: dnsmessage Question. -/
structure Question where
  name : Nat
  qtype : Nat
  qclass : Nat
deriving DecidableEq, Repr, Inhabited

/-- Modelled from the spec: the message header fields the cache and the
packet resolver read or write. -/
structure Header where
  id : Nat
  response : Bool
  truncated : Bool
  recursionDesired : Bool
  rcode : Nat
deriving DecidableEq, Repr, Inhabited

/-- Modelled from the spec: dnsmessage Message. -/
structure Message where
  header : Header
  questions : List Question
  answers : List Resource
  authorities : List Resource
  additionals : List Resource
deriving DecidableEq, Repr, Inhabited

/-- dnsmessage.TypeA. -/
def typeA : Nat := 1
/-- dnsmessage.TypeNS. -/
def typeNS : Nat := 2
/-- dnsmessage.TypeCNAME. -/
def typeCNAME : Nat := 5
/-- dnsmessage.TypeSOA. -/
def typeSOA : Nat := 6
/-- dnsmessage.TypeMX. -/
def typeMX : Nat := 15
/-- dnsmessage.TypeAAAA. -/
def typeAAAA : Nat := 28

/-- dnsmessage.RCodeSuccess. -/
def rcodeSuccess : Nat := 0
/-- dnsmessage.RCodeServerFailure. -/
def rcodeServerFailure : Nat := 2
/-- dnsmessage.RCodeNameError. -/
def rcodeNameError : Nat := 3
/-- dnsmessage.RCodeRefused. -/
def rcodeRefused : Nat := 5

/-- time.Second, in nanoseconds (Go durations are int64 nanoseconds). -/
def nsPerSec : Int := 1000000000

/-- `nsPerSec` as a natural number, for non-negative duration arithmetic. -/
def nsPerSecNat : Nat := 1000000000

/-! ## Cache data model (cache.go) -/

/-- cache.go `cacheKey`: the arguments for the resolver. -/
structure CacheKey where
  question : Question
  recursionDesired : Bool
deriving DecidableEq, Repr, Inhabited

/-- Entry identities: Go pointers `*cacheEntry` are modelled as allocation
numbers, handed out by `CacheState.nextId`. -/
abbrev EntryId := Nat

/-- cache.go `cacheEntry` (without the intrusive links, which live in the
list component of the state): key, message, negative flag, expiry and
creation instants (Int nanoseconds). -/
structure CacheEntry where
  key : CacheKey
  msg : Message
  negative : Bool
  expires : Int
  created : Int
deriving DecidableEq, Repr, Inhabited

/-- Go map deletion `delete(m, k)`: drop the binding of `k` (a no-op when
`k` is absent). -/
def mapErase (k : CacheKey) (m : List (CacheKey × EntryId)) :
    List (CacheKey × EntryId) :=
  m.filter (fun p => !(p.1 == k))

/-- Go map assignment `m[k] = v`: bind `k` to `v`, replacing any existing
binding. -/
def mapInsert (k : CacheKey) (v : EntryId) (m : List (CacheKey × EntryId)) :
    List (CacheKey × EntryId) :=
  (k, v) :: mapErase k m

/-- Go map read `m[k]`. -/
def mapFind (k : CacheKey) (m : List (CacheKey × EntryId)) : Option EntryId :=
  (m.find? (fun p => p.1 == k)).map (·.2)

/-- Allocation-table read: dereferencing an entry pointer. -/
def entsFind (id : EntryId) (ents : List (EntryId × CacheEntry)) :
    Option CacheEntry :=
  (ents.find? (fun p => p.1 == id)).map (·.2)

/-- Allocation-table write: updating the pointed-to entry in place. -/
def entsInsert (id : EntryId) (e : CacheEntry)
    (ents : List (EntryId × CacheEntry)) : List (EntryId × CacheEntry) :=
  (id, e) :: ents.filter (fun p => !(p.1 == id))

/-- cache_list.go `PushFront`: the intrusive list, viewed as the sequence of
linked entries (front first), gains `e` at the front. -/
def listPushFront (e : EntryId) (l : List EntryId) : List EntryId :=
  e :: l

/-- cache_list.go `Remove`: unlink `e` from the list. Entries are linked at
most once, so removing the (unique) occurrence of `e` is exact. -/
def listRemove (e : EntryId) (l : List EntryId) : List EntryId :=
  l.erase e

/-- cache_list.go `Back`: the tail of the list. -/
def listBack (l : List EntryId) : Option EntryId :=
  l.getLast?

/-- cache.go `cachingResolver` state: the map `m`, the LRU queue `l`, plus
the allocation table for entries and the next fresh identity. -/
structure CacheState where
  m : List (CacheKey × EntryId)
  l : List EntryId
  ents : List (EntryId × CacheEntry)
  nextId : EntryId
deriving DecidableEq, Repr, Inhabited

/-- The state of a freshly constructed resolver (`NewResolver`): empty map,
empty list. -/
def initState : CacheState := { m := [], l := [], ents := [], nextId := 0 }

/-- cache.go `Config` (the fields the embedded operations read).
`reordering`: 0 = NoReordering, 1 = RandomReordering, 2 = RotationReordering. -/
structure Config where
  reordering : Nat
  enableNegativeCaching : Bool
  maxTTL : Nat
  maxSize : Int
deriving DecidableEq, Repr, Inhabited

/-! ## TTL adjustment and minimum TTL (cache.go) -/

/-- cache.go `adjustTTL`, for one resource: deduct `elapsed` (nanoseconds)
from the resource TTL; for the authorities of a negative entry an SOA body
first caps the TTL at `soa.MinTTL`; negative remainders clamp to zero; the
store into the uint32 `Header.TTL` field truncates
(`r.Header.TTL = uint32(newTTL / time.Second)`). -/
def adjustTTLRes (r : Resource) (elapsed : Int) (negative : Bool) : Resource :=
  let ttlSec : Nat :=
    if negative then
      match r.body with
      | .soa d => if r.header.ttl > d.minTTL then d.minTTL else r.header.ttl
      | _ => r.header.ttl
    else r.header.ttl
  let ttl : Int := (ttlSec : Int) * nsPerSec
  let newTTL : Int := ttl - elapsed
  let newTTL : Int := if newTTL < 0 then 0 else newTTL
  { r with header :=
      { r.header with ttl := (newTTL.toNat / nsPerSecNat) % 2 ^ 32 } }

/-- cache.go `adjustTTL`: the loop over the section. -/
def adjustTTL (rs : List Resource) (elapsed : Int) (negative : Bool) :
    List Resource :=
  rs.map (fun r => adjustTTLRes r elapsed negative)

/-- cache.go `minTTL`: minimum of `prevMinTTL` and the TTLs of the
resources. -/
def minTTL (rs : List Resource) (prevMinTTL : Nat) : Nat :=
  rs.foldl (fun acc r => if r.header.ttl < acc then r.header.ttl else acc)
    prevMinTTL

/-- math.MaxUint32. -/
def maxUint32 : Nat := 2 ^ 32 - 1

/-! ## Record reordering (cache.go) -/

/-- cache.go `shuffleRecords`: shuffle the records at the positions `pos`.
`rnd.Shuffle` itself is abstracted by the function `shuf` (modelled from
the spec: a permutation of the records at the given positions, produced by
the per-cache RNG). -/
def shuffleRecords (shuf : List Resource → List Nat → List Resource)
    (rr : List Resource) (pos : List Nat) : List Resource :=
  if pos.length ≤ 1 then rr else shuf rr pos

/-- cache.go `rotateRecords`: remember `rr[pos[0]]`, shift
`rr[pos[i]] = rr[pos[i+1]]` for `i = 0 .. len(pos)-2` in order, then write
the remembered record at `rr[pos[len(pos)-1]]`.  The loop is translated
exactly, each assignment reading the current array. -/
def rotateRecords (rr : List Resource) (pos : List Nat) : List Resource :=
  if pos.length ≤ 1 then rr
  else
    let rr0 := rr.getD (pos.getD 0 0) default
    let rr1 := (List.range (pos.length - 1)).foldl
      (fun acc i => acc.set (pos.getD i 0) (acc.getD (pos.getD (i + 1) 0) default))
      rr
    rr1.set (pos.getD (pos.length - 1) 0) rr0

/-- The positions (in increasing order) of the records of type `t` in a
section: the classification loop of cache.go `reorderMsg` builds exactly
these four position arrays. -/
def typePositions (rs : List Resource) (t : Nat) : List Nat :=
  (List.range rs.length).filter (fun i => (rs.getD i default).header.rtype == t)

/-- cache.go `reorderMsg`: reorder the A, AAAA, MX and NS records within
the answer section using `f`, each type-class independently.  The four
position arrays are computed from the incoming answers, then `f` is applied
to each in turn (A, AAAA, MX, NS) on the same underlying array. -/
def reorderMsg (msg : Message)
    (f : List Resource → List Nat → List Resource) : Message :=
  if msg.answers.length ≤ 1 then msg
  else
    let posA := typePositions msg.answers typeA
    let posAAAA := typePositions msg.answers typeAAAA
    let posMX := typePositions msg.answers typeMX
    let posNS := typePositions msg.answers typeNS
    { msg with answers := f (f (f (f msg.answers posA) posAAAA) posMX) posNS }

/-! ## Cache store operations (cache.go) -/

/-- cache.go `lookup`: check the cache for a matching entry, handling
expiry, the LRU move-to-front, in-place rotation of the cached answers
under RotationReordering, the copy-out of the three sections, the shuffle
of the copy under RandomReordering, and TTL adjustment.  Slice copies
(`append([]Resource(nil), s...)`) are the identity on lists of values.
The `entsFind _ = none` branch is unreachable: the Go map stores live
pointers (the allocation table always holds every mapped identity). -/
def lookup (cfg : Config) (shuf : List Resource → List Nat → List Resource)
    (s : CacheState) (question : Question) (recursionDesired : Bool)
    (now : Int) : Option Message × CacheState :=
  let key : CacheKey := ⟨question, recursionDesired⟩
  match mapFind key s.m with
  | none => (none, s)
  | some id =>
    match entsFind id s.ents with
    | none => (none, s)
    | some e =>
      if e.expires < now then
        (none, { s with m := mapErase key s.m, l := listRemove id s.l })
      else
        let l' := listPushFront id (listRemove id s.l)
        let elapsed : Int := now - e.created
        let e' := if cfg.reordering == 2 then
            { e with msg := reorderMsg e.msg rotateRecords } else e
        let ents' := if cfg.reordering == 2 then entsInsert id e' s.ents
          else s.ents
        let msg : Message :=
          { header := e'.msg.header
            questions := [question]
            answers := e'.msg.answers
            authorities := e'.msg.authorities
            additionals := e'.msg.additionals }
        let msg := if cfg.reordering == 1 then
            reorderMsg msg (shuffleRecords shuf) else msg
        let msg :=
          { msg with
              answers := adjustTTL msg.answers elapsed false
              authorities := adjustTTL msg.authorities elapsed e'.negative
              additionals := adjustTTL msg.additionals elapsed false }
        (some msg, { s with l := l', ents := ents' })

/-- cache.go `put`: store an entry in the cache — allocate the entry with
`created = now` and `expires = now + ttl seconds`, insert it into the map
(Go map assignment replaces any existing binding), push it to the LRU
front, then evict the LRU tail if `MaxSize > 0 && len(m) > MaxSize`
(removing the tail from the list and deleting its stored key from the
map). -/
def put (cfg : Config) (s : CacheState) (question : Question)
    (recursionDesired : Bool) (msg : Message) (ttl : Nat) (negative : Bool)
    (now : Int) : CacheState :=
  let k : CacheKey := ⟨question, recursionDesired⟩
  let id := s.nextId
  let e : CacheEntry :=
    { key := k, msg := msg, negative := negative
      expires := now + (ttl : Int) * nsPerSec, created := now }
  let m' := mapInsert k id s.m
  let l' := listPushFront id s.l
  let ents' := entsInsert id e s.ents
  if cfg.maxSize > 0 ∧ cfg.maxSize < (m'.length : Int) then
    match listBack l' with
    | none => { m := m', l := l', ents := ents', nextId := id + 1 }
    | some evictId =>
      let evictKey := match entsFind evictId ents' with
        | some ev => ev.key
        | none => k
      { m := mapErase evictKey m', l := listRemove evictId l',
        ents := ents', nextId := id + 1 }
  else { m := m', l := l', ents := ents', nextId := id + 1 }

/-- cache.go `putResponse`: do not cache a response with no resources; do
not cache when the minimum TTL over the three sections is zero; otherwise
clamp the lifetime to `MaxTTL` and store non-negatively. -/
def putResponse (cfg : Config) (s : CacheState) (question : Question)
    (recursionDesired : Bool) (msg : Message) (now : Int) : CacheState :=
  if msg.answers.length = 0 ∧ msg.authorities.length = 0 ∧
      msg.additionals.length = 0 then
    s
  else
    let ttl := minTTL msg.answers maxUint32
    let ttl := minTTL msg.authorities ttl
    let ttl := minTTL msg.additionals ttl
    if ttl = 0 then s
    else
      let ttl := if ttl > cfg.maxTTL then cfg.maxTTL else ttl
      put cfg s question recursionDesired msg ttl false now

/-- The scan of cache.go `putNegativeResponse`: starting from `ttl = 0`,
the first SOA body in the section sets `ttl = min(header TTL, soa.MinTTL)`
and breaks. -/
def soaTTL (rs : List Resource) : Nat :=
  match rs.findSome? (fun r =>
      match r.body with
      | .soa d => some (if r.header.ttl > d.minTTL then d.minTTL
          else r.header.ttl)
      | _ => none) with
  | some t => t
  | none => 0

/-- cache.go `putNegativeResponse`: derive the negative lifetime from the
first SOA in the authorities (RFC 2308); do not cache when it is zero (or
when there is no SOA); clamp to `MaxTTL` and store negatively. -/
def putNegativeResponse (cfg : Config) (s : CacheState) (question : Question)
    (recursionDesired : Bool) (msg : Message) (now : Int) : CacheState :=
  let ttl := soaTTL msg.authorities
  if ttl = 0 then s
  else
    let ttl := if ttl > cfg.maxTTL then cfg.maxTTL else ttl
    put cfg s question recursionDesired msg ttl true now

/-- cache.go `isCacheableNegativeResponse` (RFC 2308, section 2):
NoError responses are negative when no answer has the question's type
(NODATA); NameError responses are negative; anything else is not. -/
def isCacheableNegativeResponse (question : Question) (msg : Message) :
    Bool :=
  if msg.header.rcode == rcodeSuccess then
    msg.answers.all (fun rr => !(rr.header.rtype == question.qtype))
  else if msg.header.rcode == rcodeNameError then true
  else false

/-- cache.go `Resolve`: serve from the cache on a hit; otherwise defer to
the nested resolver, shuffle the answers when reordering is enabled,
store the response through the negative path when negative caching is
enabled and the classifier accepts it, through the positive path when the
RCode is NoError, and return the nested response as observed.  `nested`
abstracts the nested resolver; `nowL` and `nowP` are the two instants
`config.now()` returns inside `lookup` and inside `put` (the nested call
happens between them).  Stats counters are not modelled. -/
def resolve (cfg : Config) (shuf : List Resource → List Nat → List Resource)
    (nested : Question → Bool → Option Message) (s : CacheState)
    (question : Question) (recursionDesired : Bool) (nowL nowP : Int) :
    Option Message × CacheState :=
  match lookup cfg shuf s question recursionDesired nowL with
  | (some msg, s') => (some msg, s')
  | (none, s') =>
    match nested question recursionDesired with
    | none => (none, s')
    | some msg =>
      let msg := if cfg.reordering ≠ 0 then
          reorderMsg msg (shuffleRecords shuf) else msg
      let s'' :=
        if cfg.enableNegativeCaching ∧
            isCacheableNegativeResponse question msg then
          putNegativeResponse cfg s' question recursionDesired msg nowP
        else if msg.header.rcode == rcodeSuccess then
          putResponse cfg s' question recursionDesired msg nowP
        else s'
      (some msg, s'')

/-! ## Concrete fixtures

Small concrete configurations, questions and messages used to exercise the
definitions at specific inputs. -/

/-- A configuration with defaults (`MaxTTL` 3600, unbounded size, no
reordering, negative caching off). -/
def cfgNone : Config :=
  { reordering := 0, enableNegativeCaching := false, maxTTL := 3600,
    maxSize := 0 }

/-- `cfgNone` with `MaxSize = 1`. -/
def cfgSize1 : Config := { cfgNone with maxSize := 1 }

/-- A family of distinct questions. -/
def qFix (n : Nat) : Question := { name := n, qtype := typeA, qclass := 1 }

/-- A response with a single A record of the given TTL. -/
def msgAttl (ttl : Nat) : Message :=
  { header :=
      { id := 0
        response := true
        truncated := false
        recursionDesired := true
        rcode := rcodeSuccess }
    questions := [qFix 1]
    answers :=
      [{ header := { name := 1, rtype := typeA, rclass := 1, ttl := ttl }
         body := .a [127, 1, 1, 1] }]
    authorities := []
    additionals := [] }

/-- The identity shuffle (a legitimate instance of the abstracted
`rnd.Shuffle`: the identity is a permutation). -/
def idShuf : List Resource → List Nat → List Resource := fun rr _ => rr

/-! ## Pointer-level model of resource bodies (for copy discipline)

In the Go code `Resource.Body` is an interface value holding a pointer
(cache.go reads it with the pointer type assertion
`r.Body.(*dnsmessage.SOAResource)`).  The slice copies in `put` and
`lookup` (`append([]Resource(nil), s...)`) copy the `Resource` structs —
headers by value, bodies by pointer.  To reason about what a caller's
mutation of a returned record can reach, this second model represents a
resource as its header together with the address of its body, and carries
the body heap explicitly.  Reordering is not involved (the NoReordering
configuration); the list and map mechanics are those of the main model. -/

/-- A resource as laid out in Go: value header, pointer body. -/
structure PResource where
  header : ResourceHeader
  bodyRef : Nat
deriving DecidableEq, Repr, Inhabited

/-- A message over pointer-bodied resources. -/
structure PMessage where
  header : Header
  questions : List Question
  answers : List PResource
  authorities : List PResource
  additionals : List PResource
deriving DecidableEq, Repr, Inhabited

/-- The body heap: address to body contents. -/
abbrev Heap := List (Nat × ResourceBody)

/-- Read a body through its pointer. -/
def heapGet (h : Heap) (r : Nat) : ResourceBody :=
  (((h.find? (fun p => p.1 == r)).map (·.2)).getD default)

/-- Mutate the pointed-to body contents (e.g. overwrite the IP bytes of an
`AResource`, or a field of an `SOAResource`). -/
def heapSet (h : Heap) (r : Nat) (b : ResourceBody) : Heap :=
  (r, b) :: h.filter (fun p => !(p.1 == r))

/-- The record a caller observes when reading a returned resource: its
header and the current contents of its body. -/
def pReadResource (h : Heap) (r : PResource) : Resource :=
  { header := r.header, body := heapGet h r.bodyRef }

/-- cache.go `cacheEntry`, over pointer-bodied resources. -/
structure PEntry where
  key : CacheKey
  msg : PMessage
  negative : Bool
  expires : Int
  created : Int
deriving DecidableEq, Repr, Inhabited

/-- Allocation-table read for pointer-bodied entries. -/
def pentsFind (id : EntryId) (ents : List (EntryId × PEntry)) :
    Option PEntry :=
  (ents.find? (fun p => p.1 == id)).map (·.2)

/-- Allocation-table write for pointer-bodied entries. -/
def pentsInsert (id : EntryId) (e : PEntry)
    (ents : List (EntryId × PEntry)) : List (EntryId × PEntry) :=
  (id, e) :: ents.filter (fun p => !(p.1 == id))

/-- cache.go `cachingResolver` state over pointer-bodied resources. -/
structure PCacheState where
  m : List (CacheKey × EntryId)
  l : List EntryId
  ents : List (EntryId × PEntry)
  nextId : EntryId
deriving DecidableEq, Repr, Inhabited

/-- The empty pointer-level cache. -/
def pInitState : PCacheState := { m := [], l := [], ents := [], nextId := 0 }

/-- cache.go `adjustTTL` over a pointer-bodied resource: the SOA check of
the negative path dereferences the body; the TTL write updates the header
— the record's own copy of it — and leaves the body pointer alone. -/
def pAdjustTTLRes (h : Heap) (r : PResource) (elapsed : Int)
    (negative : Bool) : PResource :=
  let ttlSec : Nat :=
    if negative then
      match heapGet h r.bodyRef with
      | .soa d => if r.header.ttl > d.minTTL then d.minTTL else r.header.ttl
      | _ => r.header.ttl
    else r.header.ttl
  let ttl : Int := (ttlSec : Int) * nsPerSec
  let newTTL : Int := ttl - elapsed
  let newTTL : Int := if newTTL < 0 then 0 else newTTL
  { r with header :=
      { r.header with ttl := (newTTL.toNat / nsPerSecNat) % 2 ^ 32 } }

/-- cache.go `adjustTTL` over a pointer-bodied section. -/
def pAdjustTTL (h : Heap) (rs : List PResource) (elapsed : Int)
    (negative : Bool) : List PResource :=
  rs.map (fun r => pAdjustTTLRes h r elapsed negative)

/-- cache.go `put` over pointer-bodied resources: the section copies
`append([]Resource(nil), s...)` duplicate the resource structs — the
stored records keep the caller's body pointers. -/
def pPut (cfg : Config) (s : PCacheState) (question : Question)
    (recursionDesired : Bool) (msg : PMessage) (ttl : Nat) (negative : Bool)
    (now : Int) : PCacheState :=
  let k : CacheKey := ⟨question, recursionDesired⟩
  let id := s.nextId
  let e : PEntry :=
    { key := k, msg := msg, negative := negative
      expires := now + (ttl : Int) * nsPerSec, created := now }
  let m' := mapInsert k id s.m
  let l' := listPushFront id s.l
  let ents' := pentsInsert id e s.ents
  if cfg.maxSize > 0 ∧ cfg.maxSize < (m'.length : Int) then
    match listBack l' with
    | none => { m := m', l := l', ents := ents', nextId := id + 1 }
    | some evictId =>
      let evictKey := match pentsFind evictId ents' with
        | some ev => ev.key
        | none => k
      { m := mapErase evictKey m', l := listRemove evictId l',
        ents := ents', nextId := id + 1 }
  else { m := m', l := l', ents := ents', nextId := id + 1 }

/-- cache.go `lookup` over pointer-bodied resources, in the NoReordering
configuration: the copied-out sections keep the cached entry's body
pointers; TTL adjustment rewrites only the headers of the copies. -/
def pLookup (s : PCacheState) (question : Question)
    (recursionDesired : Bool) (now : Int) (h : Heap) :
    Option PMessage × PCacheState :=
  let key : CacheKey := ⟨question, recursionDesired⟩
  match mapFind key s.m with
  | none => (none, s)
  | some id =>
    match pentsFind id s.ents with
    | none => (none, s)
    | some e =>
      if e.expires < now then
        (none, { s with m := mapErase key s.m, l := listRemove id s.l })
      else
        let l' := listPushFront id (listRemove id s.l)
        let elapsed : Int := now - e.created
        let msg : PMessage :=
          { header := e.msg.header
            questions := [question]
            answers := pAdjustTTL h e.msg.answers elapsed false
            authorities := pAdjustTTL h e.msg.authorities elapsed e.negative
            additionals := pAdjustTTL h e.msg.additionals elapsed false }
        (some msg, { s with l := l' })

/-! ## Packet resolver (resolver.go) -/

/-- resolver.go error values surfaced by the packing stage. -/
inductive PacketError where
  | packingFailed
  | truncatedResponseTooBig
deriving DecidableEq, Repr, Inhabited

/-- The packing stage of resolver.go `NewPacketResolver` (the code after
the inner `Resolve` call): pack the response; if it fits (or
`maxPacketLength == 0`) return it; otherwise set `Truncated`, drop the
three record sections, repack, and fail with `ErrTruncatedResponseTooBig`
if the truncated packet is still oversize.  `pack` abstracts
`Message.AppendPack` (package dnsmessage — modelled from the spec:
"packs the response" into bytes, failing on unpackable messages). -/
def packResponse (pack : Message → Option (List Nat)) (resp : Message)
    (maxPacketLength : Nat) : Except PacketError (List Nat) :=
  match pack resp with
  | none => .error .packingFailed
  | some respBuf =>
    if maxPacketLength = 0 ∨ respBuf.length ≤ maxPacketLength then
      .ok respBuf
    else
      let resp :=
        { resp with
            header := { resp.header with truncated := true }
            additionals := []
            authorities := []
            answers := [] }
      match pack resp with
      | none => .error .packingFailed
      | some respBuf₂ =>
        if maxPacketLength < respBuf₂.length then
          .error .truncatedResponseTooBig
        else .ok respBuf₂

/-! ## Sequences of cache operations

Claims about "every sequence of cache operations" quantify over runs of
the store's two mutating operations, `lookup` and `store` (= cache.go
`put`), each performed at the instant `config.now()` returned for it.
Runs are instrumented with the time each entry was last accessed (looked
up or stored), which the LRU order is measured against; the instrumentation
is carried next to the real state and never feeds back into it. -/

/-- One cache operation together with the instant at which it runs. -/
inductive CacheOp where
  | lookupOp (question : Question) (recursionDesired : Bool) (now : Int)
  | storeOp (question : Question) (recursionDesired : Bool) (msg : Message)
      (ttl : Nat) (negative : Bool) (now : Int)
deriving DecidableEq, Repr

/-- The instant at which an operation runs. -/
def CacheOp.time : CacheOp → Int
  | .lookupOp _ _ now => now
  | .storeOp _ _ _ _ _ now => now

/-- The state transition of one operation (the message a lookup returns is
irrelevant to the state). -/
def stepOp (cfg : Config) (shuf : List Resource → List Nat → List Resource)
    (s : CacheState) : CacheOp → CacheState
  | .lookupOp q rd now => (lookup cfg shuf s q rd now).2
  | .storeOp q rd msg ttl neg now => put cfg s q rd msg ttl neg now

/-- Run a sequence of operations. -/
def runOps (cfg : Config) (shuf : List Resource → List Nat → List Resource)
    (s : CacheState) (ops : List CacheOp) : CacheState :=
  ops.foldl (stepOp cfg shuf) s

/-- Last-access instrumentation: entry identity to the time of its last
access. -/
abbrev AccMap := List (EntryId × Int)

/-- Read the recorded last-access time of an entry. -/
def accGet (acc : AccMap) (id : EntryId) : Int :=
  (((acc.find? (fun p => p.1 == id)).map (·.2)).getD 0)

/-- Record an access. -/
def accSet (acc : AccMap) (id : EntryId) (t : Int) : AccMap :=
  (id, t) :: acc.filter (fun p => !(p.1 == id))

/-- The entry whose last access an operation refreshes: the entry a
non-expired hit moves to the LRU front, or the entry a store pushes there.
-/
def touchedId (s : CacheState) : CacheOp → Option EntryId
  | .lookupOp q rd now =>
    match mapFind ⟨q, rd⟩ s.m with
    | none => none
    | some id =>
      match entsFind id s.ents with
      | none => none
      | some e => if e.expires < now then none else some id
  | .storeOp _ _ _ _ _ _ => some s.nextId

/-- One instrumented step: the real transition, plus the access record. -/
def istepOp (cfg : Config) (shuf : List Resource → List Nat → List Resource)
    (st : CacheState × AccMap) (op : CacheOp) : CacheState × AccMap :=
  (stepOp cfg shuf st.1 op,
    match touchedId st.1 op with
    | some id => accSet st.2 id op.time
    | none => st.2)

/-- Run a sequence of operations with instrumentation. -/
def irunOps (cfg : Config) (shuf : List Resource → List Nat → List Resource)
    (st : CacheState × AccMap) (ops : List CacheOp) : CacheState × AccMap :=
  ops.foldl (istepOp cfg shuf) st

/-- `validOps tmin s ops`: along the run from `s`, operation times strictly
increase (each later than `tmin` and than all earlier operations), and
`store` is only invoked for a fingerprint that has no entry in the map at
that moment — the situation the `Resolve` miss path guarantees, since the
preceding `lookup` either found no entry or deleted the expired one. -/
def validOps (cfg : Config) (shuf : List Resource → List Nat → List Resource)
    (s : CacheState) (tmin : Int) : List CacheOp → Bool
  | [] => true
  | op :: rest =>
    tmin < op.time &&
    (match op with
     | .storeOp q rd _ _ _ _ => (mapFind ⟨q, rd⟩ s.m).isNone
     | .lookupOp _ _ _ => true) &&
    validOps cfg shuf (stepOp cfg shuf s op) op.time rest

/-- The records occupying the given positions, in position order: the
subsequence a type-class occupies. -/
def extractAt (rr : List Resource) (pos : List Nat) : List Resource :=
  pos.map (fun p => rr.getD p default)

/-- The four reordered type-classes of cache.go `reorderMsg`. -/
def reorderedTypes : List Nat := [typeA, typeAAAA, typeMX, typeNS]

/-- Whether an operation is a store. -/
def CacheOp.isStore : CacheOp → Bool
  | .storeOp _ _ _ _ _ _ => true
  | .lookupOp _ _ _ => false

/-- A pointer-bodied response with one A record (TTL 10) whose body lives
at heap address 0. -/
def pMsgFix : PMessage :=
  { header :=
      { id := 0
        response := true
        truncated := false
        recursionDesired := true
        rcode := rcodeSuccess }
    questions := [qFix 1]
    answers :=
      [{ header := { name := 1, rtype := typeA, rclass := 1, ttl := 10 }
         bodyRef := 0 }]
    authorities := []
    additionals := [] }

/-- A packing function for exercising the packet resolver: 12 header bytes
plus one byte per answer record. -/
def packFix : Message → Option (List Nat) :=
  fun m => some (List.replicate (12 + m.answers.length) 0)

/-- An AAAA question (for NODATA responses whose answers carry only A
records). -/
def qAAAAFix : Question := { name := 1, qtype := typeAAAA, qclass := 1 }

/-- A response carrying an SOA authority with header TTL 12 and MinTTL 10
(the RFC 2308 negative-caching shape). -/
def msgSOAFix : Message :=
  { header :=
      { id := 0
        response := true
        truncated := false
        recursionDesired := true
        rcode := rcodeNameError }
    questions := [qAAAAFix]
    answers := []
    authorities :=
      [{ header := { name := 1, rtype := typeSOA, rclass := 1, ttl := 12 }
         body := .soa
           { soaNS := 1, serial := 1, refresh := 2, retry := 3, expire := 4,
             minTTL := 10 } }]
    additionals := [] }

/-- The state invariant the cache maintains on the `Resolve` path, keyed
by the LRU bound `K` (= `MaxSize`) and the last operation time `tmin`:
the LRU list carries no duplicates, an entry is linked iff it is a map
value, map keys and values are unique, every mapped identity dereferences
to an entry carrying the mapped key, every linked identity is allocated
(below `nextId`), recorded last-access times are at most `tmin` and the
LRU list is strictly front-to-back newest-to-oldest, and the map respects
the size bound.  `acc` is the last-access instrumentation. -/
def CacheInv (K : Int) (tmin : Int) (c : CacheState) (acc : AccMap) :
    Prop :=
  c.l.Nodup ∧
  (∀ id, id ∈ c.l ↔ id ∈ c.m.map (fun p => p.2)) ∧
  (c.m.map (fun p => p.1)).Nodup ∧
  (c.m.map (fun p => p.2)).Nodup ∧
  (∀ p ∈ c.m, ∃ e, entsFind p.2 c.ents = some e ∧ e.key = p.1) ∧
  (∀ id ∈ c.l, id < c.nextId) ∧
  (∀ id ∈ c.l, accGet acc id ≤ tmin) ∧
  c.l.Pairwise (fun a b => accGet acc b < accGet acc a) ∧
  (0 < K → (c.m.length : Int) ≤ K)

/-- A response with a CNAME followed by two A records (the shape of the
reordering tests). -/
def msgCAAFix : Message :=
  { header :=
      { id := 0
        response := true
        truncated := false
        recursionDesired := true
        rcode := rcodeSuccess }
    questions := [qFix 1]
    answers :=
      [{ header := { name := 1, rtype := typeCNAME, rclass := 1, ttl := 10 }
         body := .cname 9 },
       { header := { name := 1, rtype := typeA, rclass := 1, ttl := 10 }
         body := .a [127, 1, 1, 0] },
       { header := { name := 1, rtype := typeA, rclass := 1, ttl := 10 }
         body := .a [127, 1, 1, 1] }]
    authorities := []
    additionals := [] }

/-! ## Theorems -/

/-- C7: the negative classifier returns true iff the response's rcode is
NameError, or the rcode is NoError and no record in the answers section has
a type equal to the question's type; every other response (including
SERVFAIL and REFUSED) is classified as not negative. -/
theorem c7_negative_classifier_iff (q : Question) (msg : Message) :
    isCacheableNegativeResponse q msg = true ↔
      msg.header.rcode = rcodeNameError ∨
        (msg.header.rcode = rcodeSuccess ∧
          ∀ r ∈ msg.answers, r.header.rtype ≠ q.qtype) := by
  unfold isCacheableNegativeResponse
  rcases h0 : msg.header.rcode == rcodeSuccess with _ | _
  · rcases h3 : msg.header.rcode == rcodeNameError with _ | _
    · simp only [beq_eq_false_iff_ne] at h0 h3
      simp [h0, h3]
    · simp only [beq_iff_eq] at h3
      simp only [beq_eq_false_iff_ne] at h0
      simp [h0, h3, rcodeNameError]
  · simp only [beq_iff_eq] at h0
    simp [h0, rcodeSuccess, rcodeNameError, List.all_eq_true]

/-- C1 (counterexample): after two stores of the same fingerprint, the
entry that the second store replaced in the map (identity 0) is still
linked in the LRU list although no map binding refers to it — the old
entry is not unlinked, and the list/map "iff" invariant fails. -/
theorem c1_stale_entry_counterexample :
    (put cfgNone (put cfgNone initState (qFix 1) true (msgAttl 5) 5 false 0)
        (qFix 1) true (msgAttl 5) 5 false 1).l = [1, 0] ∧
      (put cfgNone (put cfgNone initState (qFix 1) true (msgAttl 5) 5 false 0)
          (qFix 1) true (msgAttl 5) 5 false 1).m = [(⟨qFix 1, true⟩, 1)] ∧
      (0 : EntryId) ∈
        (put cfgNone (put cfgNone initState (qFix 1) true (msgAttl 5) 5
            false 0) (qFix 1) true (msgAttl 5) 5 false 1).l ∧
      ∀ p ∈ (put cfgNone (put cfgNone initState (qFix 1) true (msgAttl 5) 5
          false 0) (qFix 1) true (msgAttl 5) 5 false 1).m,
        p.2 ≠ (0 : EntryId) := by
  decide

/-- C2 (counterexample): with `MaxSize = 1`, the six stores
k₁,k₁,k₂,k₁,k₃,k₄ (at times 0..5) leave two entries in the map between
calls — the duplicate store leaves a stale entry in the LRU list, a later
eviction picks that stale tail and deletes the live binding of its key,
and a still later eviction finds a tail whose key is no longer mapped, so
its deletion is a no-op and the map exceeds the bound. -/
theorem c2_size_bound_counterexample :
    cfgSize1.maxSize = 1 ∧
      (runOps cfgSize1 idShuf initState
          [.storeOp (qFix 1) true (msgAttl 10) 10 false 0,
            .storeOp (qFix 1) true (msgAttl 10) 10 false 1,
            .storeOp (qFix 2) true (msgAttl 10) 10 false 2,
            .storeOp (qFix 1) true (msgAttl 10) 10 false 3,
            .storeOp (qFix 3) true (msgAttl 10) 10 false 4,
            .storeOp (qFix 4) true (msgAttl 10) 10 false 5]).m.length = 2 ∧
      ¬ (((runOps cfgSize1 idShuf initState
          [.storeOp (qFix 1) true (msgAttl 10) 10 false 0,
            .storeOp (qFix 1) true (msgAttl 10) 10 false 1,
            .storeOp (qFix 2) true (msgAttl 10) 10 false 2,
            .storeOp (qFix 1) true (msgAttl 10) 10 false 3,
            .storeOp (qFix 3) true (msgAttl 10) 10 false 4,
            .storeOp (qFix 4) true (msgAttl 10) 10 false 5]).m.length : Int)
          ≤ cfgSize1.maxSize) := by
  decide

/-- C3 (counterexample): an entry stored at t₀ = 0 with record TTL 10 and
looked up at t₁ = 1ns comes back with TTL 9, not the
`ttl₀ − ⌊t₁ − t₀⌋ = 10 − 0 = 10` the claim's formula (elapsed floored to
whole seconds before subtraction) prescribes: the code subtracts in
nanoseconds first and floors the difference. -/
theorem c3_floor_before_subtraction_counterexample :
    ((lookup cfgNone idShuf
          (put cfgNone initState (qFix 1) true (msgAttl 10) 10 false 0)
          (qFix 1) true 1).1.map
        (fun m => m.answers.map (fun r => r.header.ttl))) = some [9] ∧
      (10 : Nat) - ((1 : Int).toNat / nsPerSecNat) = 10 ∧ (9 : Nat) ≠ 10 := by
  decide

/-- C4 (counterexample): store a message whose single A record's body lives
at heap address 0, look it up, then overwrite the IP bytes through the
returned record's body pointer: a subsequent lookup for the same
fingerprint observes the mutated body — the slice copies in `put` and
`lookup` share the resource bodies instead of cloning them. -/
theorem c4_shared_body_counterexample :
    ((pLookup (pPut cfgNone pInitState (qFix 1) true pMsgFix 10 false 0)
          (qFix 1) true 1 [(0, .a [127, 0, 0, 1])]).1.map
        (fun m => m.answers.map
          (fun r => (pReadResource [(0, .a [127, 0, 0, 1])] r).body))) =
      some [.a [127, 0, 0, 1]] ∧
    ((pLookup
          (pLookup (pPut cfgNone pInitState (qFix 1) true pMsgFix 10 false 0)
            (qFix 1) true 1 [(0, .a [127, 0, 0, 1])]).2
          (qFix 1) true 2
          (heapSet [(0, .a [127, 0, 0, 1])]
            (((pLookup (pPut cfgNone pInitState (qFix 1) true pMsgFix 10
                false 0) (qFix 1) true 1
                [(0, .a [127, 0, 0, 1])]).1.getD default).answers.getD 0
                default).bodyRef
            (.a [10, 0, 0, 1]))).1.map
        (fun m => m.answers.map
          (fun r => (pReadResource
            (heapSet [(0, .a [127, 0, 0, 1])]
              (((pLookup (pPut cfgNone pInitState (qFix 1) true pMsgFix 10
                  false 0) (qFix 1) true 1
                  [(0, .a [127, 0, 0, 1])]).1.getD default).answers.getD 0
                  default).bodyRef
              (.a [10, 0, 0, 1])) r).body))) = some [.a [10, 0, 0, 1]] ∧
    ResourceBody.a [10, 0, 0, 1] ≠ .a [127, 0, 0, 1] := by
  decide

/-- C9: when the packed response exceeds a positive `maxPacketLength`, the
packet resolver sets `Truncated`, empties the answers, authorities and
additionals, and repacks; if the repacked result still exceeds the bound it
returns `ErrTruncatedResponseTooBig`, otherwise it returns the truncated
packet. -/
theorem c9_oversize_truncation
    (pack : Message → Option (List Nat)) (resp : Message)
    (maxPacketLength : Nat) (b : List Nat)
    (hpos : 0 < maxPacketLength) (hpack : pack resp = some b)
    (hbig : maxPacketLength < b.length) :
    ∀ b₂,
      pack { resp with
              header := { resp.header with truncated := true }
              additionals := []
              authorities := []
              answers := [] } = some b₂ →
      packResponse pack resp maxPacketLength =
        if maxPacketLength < b₂.length then .error .truncatedResponseTooBig
        else .ok b₂ := by
  intro b₂ h₂
  unfold packResponse
  rw [hpack]
  have hcond : ¬ (maxPacketLength = 0 ∨ b.length ≤ maxPacketLength) := by
    omega
  simp only [if_neg hcond]
  rw [h₂]

/-- Witness for C9: a concrete response packing to 13 bytes against a
12-byte bound; the truncated repack is 12 bytes and is returned. -/
theorem c9_oversize_truncation_witness :
    (0 : Nat) < 12 ∧
      packResponse packFix (msgAttl 10) 12 = .ok (List.replicate 12 0) := by
  refine ⟨by decide, ?_⟩
  have h := c9_oversize_truncation packFix (msgAttl 10) 12
    (List.replicate 13 0) (by decide) rfl (by decide)
    (List.replicate 12 0) rfl
  rw [h]
  simp

/-- Clamping as written in cache.go (`if ttl > MaxTTL { ttl = MaxTTL }`)
is the minimum. -/
theorem clamp_eq_min (t c : Nat) : (if t > c then c else t) = min t c := by
  split <;> omega

/-- `putResponse` as a case split: skip empty responses, skip zero minimum
TTL, otherwise store with the clamped minimum TTL, non-negative. -/
theorem putResponse_eq (cfg : Config) (s : CacheState) (q : Question)
    (rd : Bool) (msg : Message) (now : Int) :
    putResponse cfg s q rd msg now =
      if msg.answers.length = 0 ∧ msg.authorities.length = 0 ∧
          msg.additionals.length = 0 then s
      else if minTTL msg.additionals
          (minTTL msg.authorities (minTTL msg.answers maxUint32)) = 0 then s
      else
        put cfg s q rd msg
          (min (minTTL msg.additionals
            (minTTL msg.authorities (minTTL msg.answers maxUint32)))
            cfg.maxTTL) false now := by
  unfold putResponse
  split
  · rfl
  · dsimp only
    split
    · rfl
    · rw [clamp_eq_min]

/-- `put` on the empty cache stores one entry with identity 0; no eviction
can trigger. -/
theorem put_initState (cfg : Config) (q : Question) (rd : Bool)
    (msg : Message) (ttl : Nat) (neg : Bool) (now : Int) :
    put cfg initState q rd msg ttl neg now =
      { m := [(⟨q, rd⟩, 0)]
        l := [0]
        ents :=
          [(0,
            { key := ⟨q, rd⟩
              msg := msg
              negative := neg
              expires := now + (ttl : Int) * nsPerSec
              created := now })]
        nextId := 1 } := by
  have hno : ¬ (cfg.maxSize > 0 ∧ cfg.maxSize < ((1 : Nat) : Int)) := by
    omega
  simp [put, initState, mapInsert, mapErase, listPushFront, entsInsert, hno]
  intro h1 h2
  exact absurd h2 (by omega)

/-- Reading the only binding of a one-entry map. -/
theorem mapFind_single (k : CacheKey) (v : EntryId) :
    mapFind k [(k, v)] = some v := by
  simp [mapFind, List.find?]

/-- Reading the only entry of a one-entry allocation table. -/
theorem entsFind_single (id : EntryId) (e : CacheEntry) :
    entsFind id [(id, e)] = some e := by
  simp [entsFind, List.find?]

/-- C5: `putResponse` does not cache a message with zero records across the
three sections; otherwise the lifetime is the minimum of MaxUint32 and all
resource TTLs across the sections; a zero minimum is not cached; otherwise
the lifetime is clamped to `MaxTTL` and the message is stored with
`negative = false` (exhibited on the fresh cache: the new entry carries
`negative = false`, `created = now` and
`expires = now + clamped lifetime`). -/
theorem c5_put_positive_rules (cfg : Config) (q : Question) (rd : Bool)
    (msg : Message) (now : Int) :
    (msg.answers = [] ∧ msg.authorities = [] ∧ msg.additionals = [] →
      ∀ s, putResponse cfg s q rd msg now = s) ∧
    (minTTL msg.additionals
        (minTTL msg.authorities (minTTL msg.answers maxUint32)) = 0 →
      ∀ s, putResponse cfg s q rd msg now = s) ∧
    (¬ (msg.answers = [] ∧ msg.authorities = [] ∧ msg.additionals = []) →
      minTTL msg.additionals
          (minTTL msg.authorities (minTTL msg.answers maxUint32)) ≠ 0 →
      (∀ s, putResponse cfg s q rd msg now =
          put cfg s q rd msg
            (min (minTTL msg.additionals
              (minTTL msg.authorities (minTTL msg.answers maxUint32)))
              cfg.maxTTL) false now) ∧
      mapFind ⟨q, rd⟩ (putResponse cfg initState q rd msg now).m = some 0 ∧
      entsFind 0 (putResponse cfg initState q rd msg now).ents =
        some
          { key := ⟨q, rd⟩
            msg := msg
            negative := false
            expires := now + ((min (minTTL msg.additionals
              (minTTL msg.authorities (minTTL msg.answers maxUint32)))
              cfg.maxTTL : Nat) : Int) * nsPerSec
            created := now }) := by
  refine ⟨?_, ?_, ?_⟩
  · intro h s
    rw [putResponse_eq]
    simp [h.1, h.2.1, h.2.2]
  · intro h s
    rw [putResponse_eq]
    simp [h]
  · intro hne httl
    have hlen : ¬ (msg.answers.length = 0 ∧ msg.authorities.length = 0 ∧
        msg.additionals.length = 0) := by
      simpa [List.length_eq_zero] using hne
    have heq : ∀ s, putResponse cfg s q rd msg now =
        put cfg s q rd msg
          (min (minTTL msg.additionals
            (minTTL msg.authorities (minTTL msg.answers maxUint32)))
            cfg.maxTTL) false now := by
      intro s
      rw [putResponse_eq]
      simp only [if_neg hlen, if_neg httl]
    refine ⟨heq, ?_, ?_⟩
    · rw [heq initState, put_initState]
      exact mapFind_single _ _
    · rw [heq initState, put_initState]
      exact entsFind_single _ _

/-- Witness for C5: a one-record response with TTL 10 against `MaxTTL`
3600 is stored on the fresh cache with lifetime 10 and `negative = false`.
-/
theorem c5_put_positive_rules_witness :
    mapFind ⟨qFix 1, true⟩
        (putResponse cfgNone initState (qFix 1) true (msgAttl 10) 0).m =
      some 0 ∧
    entsFind 0
        (putResponse cfgNone initState (qFix 1) true (msgAttl 10) 0).ents =
      some
        { key := ⟨qFix 1, true⟩
          msg := msgAttl 10
          negative := false
          expires := 10 * nsPerSec
          created := 0 } := by
  have h := (c5_put_positive_rules cfgNone (qFix 1) true (msgAttl 10)
    0).2.2 (by decide) (by decide)
  refine ⟨h.2.1, ?_⟩
  have h₂ := h.2.2
  rw [h₂]
  decide

/-- Without an SOA in the scanned section, the RFC 2308 scan yields 0. -/
theorem soaTTL_eq_zero (rs : List Resource)
    (h : ∀ r ∈ rs, ∀ d, r.body ≠ ResourceBody.soa d) : soaTTL rs = 0 := by
  unfold soaTTL
  have hnone : rs.findSome? (fun r =>
      match r.body with
      | .soa d => some (if r.header.ttl > d.minTTL then d.minTTL
          else r.header.ttl)
      | _ => none) = none := by
    rw [List.findSome?_eq_none_iff]
    intro r hr
    cases hb : r.body with
    | soa d => exact absurd hb (h r hr d)
    | _ => simp [hb]
  rw [hnone]

/-- The RFC 2308 scan stops at the first SOA and takes the minimum of its
header TTL and its MinTTL field. -/
theorem soaTTL_first (pre rest : List Resource) (r : Resource) (d : SOAData)
    (hpre : ∀ r' ∈ pre, ∀ d', r'.body ≠ ResourceBody.soa d')
    (hr : r.body = ResourceBody.soa d) :
    soaTTL (pre ++ r :: rest) = min r.header.ttl d.minTTL := by
  unfold soaTTL
  have hprenone : pre.findSome? (fun r =>
      match r.body with
      | .soa d => some (if r.header.ttl > d.minTTL then d.minTTL
          else r.header.ttl)
      | _ => none) = none := by
    rw [List.findSome?_eq_none_iff]
    intro r' hr'
    cases hb : r'.body with
    | soa d' => exact absurd hb (hpre r' hr' d')
    | _ => simp [hb]
  rw [List.findSome?_append, hprenone]
  simp [hr, clamp_eq_min]

/-- `putNegativeResponse` as a case split: skip when the scanned lifetime
is 0, otherwise store negatively with the clamped lifetime. -/
theorem putNegativeResponse_eq (cfg : Config) (s : CacheState)
    (q : Question) (rd : Bool) (msg : Message) (now : Int) :
    putNegativeResponse cfg s q rd msg now =
      if soaTTL msg.authorities = 0 then s
      else put cfg s q rd msg (min (soaTTL msg.authorities) cfg.maxTTL)
        true now := by
  unfold putNegativeResponse
  dsimp only
  split
  · rfl
  · rw [clamp_eq_min]

/-- C6: `putNegativeResponse` does not cache a message without an SOA in
the authorities; otherwise the lifetime is the minimum of the first SOA
record's header TTL and its body's MinTTL; a zero lifetime is not cached;
otherwise the lifetime is clamped to `MaxTTL` and the message is stored
with `negative = true` (exhibited on the fresh cache). -/
theorem c6_put_negative_rules (cfg : Config) (q : Question) (rd : Bool)
    (msg : Message) (now : Int) :
    ((∀ r ∈ msg.authorities, ∀ d, r.body ≠ ResourceBody.soa d) →
      ∀ s, putNegativeResponse cfg s q rd msg now = s) ∧
    (∀ pre r rest d, msg.authorities = pre ++ r :: rest →
      (∀ r' ∈ pre, ∀ d', r'.body ≠ ResourceBody.soa d') →
      r.body = ResourceBody.soa d →
      (min r.header.ttl d.minTTL = 0 →
        ∀ s, putNegativeResponse cfg s q rd msg now = s) ∧
      (min r.header.ttl d.minTTL ≠ 0 →
        (∀ s, putNegativeResponse cfg s q rd msg now =
          put cfg s q rd msg (min (min r.header.ttl d.minTTL) cfg.maxTTL)
            true now) ∧
        mapFind ⟨q, rd⟩
            (putNegativeResponse cfg initState q rd msg now).m = some 0 ∧
        entsFind 0 (putNegativeResponse cfg initState q rd msg now).ents =
          some
            { key := ⟨q, rd⟩
              msg := msg
              negative := true
              expires := now + ((min (min r.header.ttl d.minTTL)
                cfg.maxTTL : Nat) : Int) * nsPerSec
              created := now })) := by
  constructor
  · intro h s
    rw [putNegativeResponse_eq, if_pos (soaTTL_eq_zero _ h)]
  · intro pre r rest d hsec hpre hr
    have hscan : soaTTL msg.authorities = min r.header.ttl d.minTTL := by
      rw [hsec]
      exact soaTTL_first pre rest r d hpre hr
    constructor
    · intro h0 s
      rw [putNegativeResponse_eq, if_pos (by rw [hscan]; exact h0)]
    · intro h0
      have heq : ∀ s, putNegativeResponse cfg s q rd msg now =
          put cfg s q rd msg (min (min r.header.ttl d.minTTL) cfg.maxTTL)
            true now := by
        intro s
        rw [putNegativeResponse_eq, if_neg (by rw [hscan]; exact h0), hscan]
      refine ⟨heq, ?_, ?_⟩
      · rw [heq initState, put_initState]
        exact mapFind_single _ _
      · rw [heq initState, put_initState]
        exact entsFind_single _ _

/-- Witness for C6: an NXDOMAIN response whose SOA authority has header
TTL 12 and MinTTL 10 is cached negatively on the fresh cache with lifetime
10 seconds. -/
theorem c6_put_negative_rules_witness :
    mapFind ⟨qAAAAFix, true⟩
        (putNegativeResponse cfgNone initState qAAAAFix true msgSOAFix 0).m =
      some 0 ∧
    entsFind 0
        (putNegativeResponse cfgNone initState qAAAAFix true msgSOAFix
          0).ents =
      some
        { key := ⟨qAAAAFix, true⟩
          msg := msgSOAFix
          negative := true
          expires := 10 * nsPerSec
          created := 0 } := by
  have h := ((c6_put_negative_rules cfgNone qAAAAFix true msgSOAFix 0).2
    [] (msgSOAFix.authorities.getD 0 default) []
    { soaNS := 1, serial := 1, refresh := 2, retry := 3, expire := 4,
      minTTL := 10 }
    (by decide) (by intro r' hr'; simp at hr') (by decide)).2
    (by decide)
  refine ⟨h.2.1, ?_⟩
  rw [h.2.2]
  decide

/-- The uint32 store of `adjustTTL`, for a non-negative elapsed duration
and an in-range TTL: subtracting elapsed nanoseconds and flooring the
non-negative difference to whole seconds deducts the elapsed time rounded
UP to whole seconds (Nat subtraction clamps at 0). -/
theorem adjustTTLRes_positive (r : Resource) (e : Int) (he : 0 ≤ e)
    (httl : r.header.ttl < 2 ^ 32) :
    adjustTTLRes r e false =
      { r with header := { r.header with
          ttl := r.header.ttl -
            (e.toNat + (nsPerSecNat - 1)) / nsPerSecNat } } := by
  unfold adjustTTLRes
  simp only [Bool.false_eq_true, if_false]
  have hkey : ((if ((r.header.ttl : Int) * nsPerSec - e) < 0 then 0
        else ((r.header.ttl : Int) * nsPerSec - e)).toNat / nsPerSecNat)
          % 2 ^ 32 =
      r.header.ttl - (e.toNat + (nsPerSecNat - 1)) / nsPerSecNat := by
    have h9 : nsPerSec = (1000000000 : Int) := rfl
    have h9n : nsPerSecNat = 1000000000 := rfl
    rw [h9, h9n]
    split <;> omega
  rw [hkey]

/-- C3 (amended): with reordering disabled, for an entry stored at t₀ with
lifetime L whose answer records carry (uint32) TTLs, a lookup at t₁ with
t₀ ≤ t₁ ≤ t₀ + L seconds hits and returns the answers with each TTL
replaced by `ttl₀ − ⌈t₁ − t₀⌉` (elapsed time rounded UP to whole seconds,
clamped below at 0): the code subtracts the elapsed nanoseconds from the
TTL first and floors the non-negative difference to whole seconds, rather
than flooring the elapsed time before subtracting. -/
theorem c3_hit_freshness_amended (cfg : Config)
    (shuf : List Resource → List Nat → List Resource)
    (hcfg : cfg.reordering = 0) (q : Question) (rd : Bool) (msg : Message)
    (L : Nat) (neg : Bool) (t0 t1 : Int) (hmono : t0 ≤ t1)
    (hfresh : t1 ≤ t0 + (L : Int) * nsPerSec)
    (hbound : ∀ r ∈ msg.answers, r.header.ttl < 2 ^ 32) :
    (lookup cfg shuf (put cfg initState q rd msg L neg t0) q rd t1).1 =
      some
        { header := msg.header
          questions := [q]
          answers := msg.answers.map (fun r =>
            { r with header := { r.header with
                ttl := r.header.ttl -
                  ((t1 - t0).toNat + (nsPerSecNat - 1)) / nsPerSecNat } })
          authorities := adjustTTL msg.authorities (t1 - t0) neg
          additionals := adjustTTL msg.additionals (t1 - t0) false } := by
  rw [put_initState]
  unfold lookup
  simp only [mapFind_single, entsFind_single]
  rw [if_neg (by omega : ¬ (t0 + (L : Int) * nsPerSec < t1))]
  simp only [hcfg, show ((0 : Nat) == 2) = false from rfl,
    show ((0 : Nat) == 1) = false from rfl, Bool.false_eq_true, if_false]
  congr 2
  unfold adjustTTL
  exact List.map_congr_left
    (fun r hr => adjustTTLRes_positive r (t1 - t0) (by omega) (hbound r hr))

/-- Witness for C3 (amended): the stored TTL-10 record looked up 1ns later
comes back with TTL 9. -/
theorem c3_hit_freshness_amended_witness :
    (0 : Int) ≤ 1 ∧
      (lookup cfgNone idShuf
          (put cfgNone initState (qFix 1) true (msgAttl 10) 10 false 0)
          (qFix 1) true 1).1 =
        some
          { header := (msgAttl 10).header
            questions := [qFix 1]
            answers :=
              [{ header := { name := 1, rtype := typeA, rclass := 1, ttl := 9 }
                 body := .a [127, 1, 1, 1] }]
            authorities := []
            additionals := [] } := by
  refine ⟨by decide, ?_⟩
  rw [c3_hit_freshness_amended cfgNone idShuf rfl (qFix 1) true (msgAttl 10)
    10 false 0 1 (by decide) (by decide) (by decide)]
  decide

/-- Writing through a body pointer is observed by every reader of that
pointer. -/
theorem heapGet_heapSet (h : Heap) (r : Nat) (b : ResourceBody) :
    heapGet (heapSet h r b) r = b := by
  simp [heapGet, heapSet, List.find?]

/-- TTL adjustment rewrites headers only: the body pointers of the
adjusted copies are exactly the originals. -/
theorem pAdjustTTL_bodyRefs (h : Heap) (rs : List PResource) (el : Int)
    (n : Bool) :
    (pAdjustTTL h rs el n).map (fun r => r.bodyRef) =
      rs.map (fun r => r.bodyRef) := by
  unfold pAdjustTTL
  rw [List.map_map]
  rfl

/-- C4 (amended): stored sections and hit results are copied at the
struct/slice level, so a hit leaves the cached entry (headers included)
intact and TTL adjustment happens on the caller's copy; but the resource
bodies are held by pointer and shared: a returned message's answers carry
exactly the cached entry's body pointers, a subsequent lookup returns
those same pointers again, and writing new contents through a returned
record's body pointer is observed through the cached pointer — mutating a
returned record's body contents does change the message observed from a
subsequent lookup for the same fingerprint. -/
theorem c4_copy_isolation_amended (s : PCacheState) (q : Question)
    (rd : Bool) (now : Int) (id : EntryId) (e : PEntry) (h : Heap)
    (hm : mapFind ⟨q, rd⟩ s.m = some id)
    (he : pentsFind id s.ents = some e)
    (hexp : ¬ e.expires < now) :
    ∃ m₁, (pLookup s q rd now h).1 = some m₁ ∧
      m₁.answers.map (fun r => r.bodyRef) =
        e.msg.answers.map (fun r => r.bodyRef) ∧
      pentsFind id (pLookup s q rd now h).2.ents = some e ∧
      (∀ r ∈ m₁.answers, ∀ b,
        heapGet (heapSet h r.bodyRef b) r.bodyRef = b) ∧
      (∀ h₂, ∃ m₂, (pLookup (pLookup s q rd now h).2 q rd now h₂).1 =
          some m₂ ∧
        m₂.answers.map (fun r => r.bodyRef) =
          e.msg.answers.map (fun r => r.bodyRef)) := by
  unfold pLookup
  simp only [hm, he]
  rw [if_neg hexp]
  refine ⟨_, rfl, pAdjustTTL_bodyRefs _ _ _ _, he, ?_, ?_⟩
  · intro r hr b
    exact heapGet_heapSet h r.bodyRef b
  · intro h₂
    simp only [hm, he]
    rw [if_neg hexp]
    exact ⟨_, rfl, pAdjustTTL_bodyRefs _ _ _ _⟩

/-- Witness for C4 (amended): the concrete one-record cache. -/
theorem c4_copy_isolation_amended_witness :
    ∃ m₁,
      (pLookup (pPut cfgNone pInitState (qFix 1) true pMsgFix 10 false 0)
          (qFix 1) true 1 [(0, .a [127, 0, 0, 1])]).1 = some m₁ ∧
      m₁.answers.map (fun r => r.bodyRef) =
        pMsgFix.answers.map (fun r => r.bodyRef) ∧
      pentsFind 0
          (pLookup (pPut cfgNone pInitState (qFix 1) true pMsgFix 10 false 0)
            (qFix 1) true 1 [(0, .a [127, 0, 0, 1])]).2.ents =
        some
          { key := ⟨qFix 1, true⟩
            msg := pMsgFix
            negative := false
            expires := 10 * nsPerSec
            created := 0 } ∧
      (∀ r ∈ m₁.answers, ∀ b,
        heapGet (heapSet [(0, .a [127, 0, 0, 1])] r.bodyRef b) r.bodyRef =
          b) ∧
      (∀ h₂, ∃ m₂,
        (pLookup
            (pLookup (pPut cfgNone pInitState (qFix 1) true pMsgFix 10
              false 0) (qFix 1) true 1 [(0, .a [127, 0, 0, 1])]).2
            (qFix 1) true 1 h₂).1 = some m₂ ∧
        m₂.answers.map (fun r => r.bodyRef) =
          pMsgFix.answers.map (fun r => r.bodyRef)) := by
  exact c4_copy_isolation_amended
    (pPut cfgNone pInitState (qFix 1) true pMsgFix 10 false 0)
    (qFix 1) true 1 0
    { key := ⟨qFix 1, true⟩, msg := pMsgFix, negative := false,
      expires := 10 * nsPerSec, created := 0 }
    [(0, .a [127, 0, 0, 1])] (by decide) (by decide) (by decide)

/-- A fингerprint with no map binding misses and leaves the state alone. -/
theorem lookup_miss (cfg : Config)
    (shuf : List Resource → List Nat → List Resource) (s : CacheState)
    (q : Question) (rd : Bool) (now : Int)
    (h : mapFind ⟨q, rd⟩ s.m = none) :
    lookup cfg shuf s q rd now = (none, s) := by
  unfold lookup
  simp only [h]

/-- Reordering never touches the message header. -/
theorem reorderMsg_header (msg : Message)
    (f : List Resource → List Nat → List Resource) :
    (reorderMsg msg f).header = msg.header := by
  unfold reorderMsg
  split <;> rfl

/-- A lookup on a one-entry cache for the stored fingerprint before expiry
returns a message. -/
theorem lookup_single_hit (cfg : Config)
    (shuf : List Resource → List Nat → List Resource) (q : Question)
    (rd : Bool) (e : CacheEntry) (t1 : Int) (hexp : ¬ e.expires < t1) :
    ((lookup cfg shuf
        { m := [(⟨q, rd⟩, 0)], l := [0], ents := [(0, e)], nextId := 1 }
        q rd t1).1).isSome = true := by
  unfold lookup
  simp only [mapFind_single, entsFind_single]
  rw [if_neg hexp]
  rfl

/-- C10: a NoError (in particular NODATA) response from the nested
resolver, with negative caching disabled, is stored by `Resolve` through
the positive path: the state update is exactly `putResponse` on the
(possibly shuffled) response; on the fresh cache, when the positive
don't-cache rules pass, the entry is present with `negative = false` and
lifetime the clamped minimum TTL over the three sections, and a later
lookup for the same fingerprint before expiry is served from the cache. -/
theorem c10_nodata_cached_positively (cfg : Config)
    (shuf : List Resource → List Nat → List Resource)
    (nested : Question → Bool → Option Message) (s : CacheState)
    (q : Question) (rd : Bool) (msg : Message) (nowL nowP : Int)
    (hgate : cfg.enableNegativeCaching = false)
    (hnested : nested q rd = some msg)
    (hrcode : msg.header.rcode = rcodeSuccess)
    (hnodata : ∀ r ∈ msg.answers, r.header.rtype ≠ q.qtype)
    (hmiss : mapFind ⟨q, rd⟩ s.m = none) :
    ∀ msgR, msgR = (if cfg.reordering ≠ 0 then
        reorderMsg msg (shuffleRecords shuf) else msg) →
    resolve cfg shuf nested s q rd nowL nowP =
        (some msgR, putResponse cfg s q rd msgR nowP) ∧
      (s = initState →
        ¬ (msgR.answers = [] ∧ msgR.authorities = [] ∧
            msgR.additionals = []) →
        ∀ tmin, tmin = minTTL msgR.additionals
            (minTTL msgR.authorities (minTTL msgR.answers maxUint32)) →
        tmin ≠ 0 →
        mapFind ⟨q, rd⟩ (resolve cfg shuf nested s q rd nowL nowP).2.m =
            some 0 ∧
          entsFind 0 (resolve cfg shuf nested s q rd nowL nowP).2.ents =
            some
              { key := ⟨q, rd⟩
                msg := msgR
                negative := false
                expires := nowP +
                  ((min tmin cfg.maxTTL : Nat) : Int) * nsPerSec
                created := nowP }
          ∧
          ∀ t1, ¬ (nowP + ((min tmin cfg.maxTTL : Nat) : Int) * nsPerSec
              < t1) →
            ((lookup cfg shuf
                (resolve cfg shuf nested s q rd nowL nowP).2
                q rd t1).1).isSome = true) := by
  intro msgR hmsgR
  have hresolve : resolve cfg shuf nested s q rd nowL nowP =
      (some msgR, putResponse cfg s q rd msgR nowP) := by
    unfold resolve
    rw [lookup_miss cfg shuf s q rd nowL hmiss]
    rw [hnested]
    have hhdr : msgR.header.rcode = rcodeSuccess := by
      by_cases hR : cfg.reordering = 0
      · rw [hmsgR, if_neg (by simp [hR])]
        exact hrcode
      · rw [hmsgR, if_pos hR, reorderMsg_header]
        exact hrcode
    simp only [hgate, Bool.false_eq_true, false_and, if_false, ← hmsgR]
    simp only [hhdr, rcodeSuccess, beq_self_eq_true, if_true]
  refine ⟨hresolve, ?_⟩
  intro hs hne tmin htmin h0
  subst hs
  have hput : (resolve cfg shuf nested initState q rd nowL nowP).2 =
      put cfg initState q rd msgR
        (min tmin cfg.maxTTL) false nowP := by
    rw [hresolve]
    dsimp only
    rw [putResponse_eq]
    rw [if_neg (by simpa [List.length_eq_zero] using hne),
      if_neg (by rw [← htmin]; exact h0), htmin]
  rw [hput, put_initState]
  refine ⟨mapFind_single _ _, entsFind_single _ _, ?_⟩
  intro t1 hexp
  exact lookup_single_hit cfg shuf q rd _ t1 hexp

/-- Witness for C10: a NODATA response (an A answer to an AAAA question)
with negative caching disabled is cached through the positive path and
served from cache 5 seconds later. -/
theorem c10_nodata_cached_positively_witness :
    resolve cfgNone idShuf (fun _ _ => some (msgAttl 10)) initState
        qAAAAFix true 0 0 =
      (some (msgAttl 10),
        putResponse cfgNone initState qAAAAFix true (msgAttl 10) 0) ∧
    mapFind ⟨qAAAAFix, true⟩
        (resolve cfgNone idShuf (fun _ _ => some (msgAttl 10)) initState
          qAAAAFix true 0 0).2.m = some 0 ∧
    ((lookup cfgNone idShuf
        (resolve cfgNone idShuf (fun _ _ => some (msgAttl 10)) initState
          qAAAAFix true 0 0).2
        qAAAAFix true (5 * nsPerSec)).1).isSome = true := by
  have h := c10_nodata_cached_positively cfgNone idShuf
    (fun _ _ => some (msgAttl 10)) initState qAAAAFix true (msgAttl 10)
    0 0 rfl rfl rfl (by decide) rfl (msgAttl 10) (by norm_num [cfgNone])
  have h2 := h.2 rfl (by decide) 10 (by decide) (by decide)
  exact ⟨h.1, h2.1, h2.2.2 (5 * nsPerSec) (by decide)⟩

/-- `getD` after `set` at a different index. -/
theorem getD_set_ne {α : Type} (l : List α) (i j : Nat) (a d : α)
    (h : i ≠ j) : (l.set i a).getD j d = l.getD j d := by
  rw [List.getD_eq_getElem?_getD, List.getElem?_set_ne h,
    ← List.getD_eq_getElem?_getD]

/-- `getD` after `set` at the same (in-range) index. -/
theorem getD_set_self {α : Type} (l : List α) (i : Nat) (a d : α)
    (h : i < l.length) : (l.set i a).getD i d = a := by
  rw [List.getD_eq_getElem?_getD, List.getElem?_set_self h]
  rfl

/-- The shifting loop of `rotateRecords` preserves the section length. -/
theorem rotFold_length (g : List Nat) (pos : List Nat)
    (rr : List Resource) :
    (g.foldl (fun acc i =>
        acc.set (pos.getD i 0) (acc.getD (pos.getD (i + 1) 0) default))
      rr).length = rr.length := by
  induction g generalizing rr with
  | nil => rfl
  | cons a g ih =>
    rw [List.foldl_cons, ih, List.length_set]

/-- Strictly increasing positions read through `getD`. -/
theorem pos_strict_mono (pos : List Nat) (hord : pos.Pairwise (· < ·))
    (i j : Nat) (hij : i < j) (hj : j < pos.length) :
    pos.getD i 0 < pos.getD j 0 := by
  rw [List.getD_eq_getElem (l := pos) 0 (by omega),
    List.getD_eq_getElem (l := pos) 0 hj]
  exact List.pairwise_iff_getElem.mp hord i j (by omega) hj hij

/-- Characterization of the shifting loop of `rotateRecords` after `M`
steps: position `pos[i]` (for `i < M`) holds the record that was at
`pos[i+1]`, every other index is untouched. -/
theorem rotFold_getD (pos : List Nat) (rr : List Resource) (M : Nat)
    (hord : pos.Pairwise (· < ·)) (hbound : ∀ p ∈ pos, p < rr.length)
    (hM : M < pos.length) :
    (∀ i, i < M →
      ((List.range M).foldl (fun acc i =>
          acc.set (pos.getD i 0) (acc.getD (pos.getD (i + 1) 0) default))
        rr).getD (pos.getD i 0) default =
        rr.getD (pos.getD (i + 1) 0) default) ∧
    (∀ q, (∀ i, i < M → pos.getD i 0 ≠ q) →
      ((List.range M).foldl (fun acc i =>
          acc.set (pos.getD i 0) (acc.getD (pos.getD (i + 1) 0) default))
        rr).getD q default = rr.getD q default) := by
  induction M with
  | zero => exact ⟨fun i hi => absurd hi (by omega), fun q _ => rfl⟩
  | succ M ih =>
    obtain ⟨ihA, ihB⟩ := ih (by omega)
    rw [List.range_succ, List.foldl_append, List.foldl_cons, List.foldl_nil]
    have hmemM : pos.getD M 0 ∈ pos := by
      rw [List.getD_eq_getElem (l := pos) 0 (by omega)]
      exact List.getElem_mem _
    have hlenM : pos.getD M 0 <
        ((List.range M).foldl (fun acc i =>
          acc.set (pos.getD i 0) (acc.getD (pos.getD (i + 1) 0) default))
          rr).length := by
      rw [rotFold_length]
      exact hbound _ hmemM
    have hvalM :
        ((List.range M).foldl (fun acc i =>
          acc.set (pos.getD i 0) (acc.getD (pos.getD (i + 1) 0) default))
          rr).getD (pos.getD (M + 1) 0) default =
        rr.getD (pos.getD (M + 1) 0) default := by
      refine ihB _ (fun i hi => ?_)
      have := pos_strict_mono pos hord i (M + 1) (by omega) hM
      omega
    constructor
    · intro i hi
      rcases Nat.lt_or_ge i M with hiM | hiM
      · have hne : pos.getD M 0 ≠ pos.getD i 0 := by
          have := pos_strict_mono pos hord i M hiM (by omega)
          omega
        rw [getD_set_ne _ _ _ _ _ hne]
        exact ihA i hiM
      · have hiM' : i = M := by omega
        subst hiM'
        rw [getD_set_self _ _ _ _ hlenM]
        exact hvalM
    · intro q hq
      have hne : pos.getD M 0 ≠ q := hq M (by omega)
      rw [getD_set_ne _ _ _ _ _ hne]
      exact ihB q (fun i hi => hq i (by omega))

/-- `rotateRecords` preserves the section length. -/
theorem rotateRecords_length (rr : List Resource) (pos : List Nat) :
    (rotateRecords rr pos).length = rr.length := by
  unfold rotateRecords
  split
  · rfl
  · rw [List.length_set, rotFold_length]

/-- Characterization of `rotateRecords` on strictly increasing in-range
positions: a left rotation of the records at those positions, identity
elsewhere. -/
theorem rotateRecords_getD (rr : List Resource) (pos : List Nat)
    (hord : pos.Pairwise (· < ·)) (hbound : ∀ p ∈ pos, p < rr.length)
    (hn : 2 ≤ pos.length) :
    (∀ i, i + 1 < pos.length →
      (rotateRecords rr pos).getD (pos.getD i 0) default =
        rr.getD (pos.getD (i + 1) 0) default) ∧
    (rotateRecords rr pos).getD (pos.getD (pos.length - 1) 0) default =
      rr.getD (pos.getD 0 0) default ∧
    (∀ q, q ∉ pos →
      (rotateRecords rr pos).getD q default = rr.getD q default) := by
  obtain ⟨hA, hB⟩ := rotFold_getD pos rr (pos.length - 1) hord hbound
    (by omega)
  unfold rotateRecords
  rw [if_neg (by omega)]
  have hlenLast : pos.getD (pos.length - 1) 0 <
      ((List.range (pos.length - 1)).foldl (fun acc i =>
        acc.set (pos.getD i 0) (acc.getD (pos.getD (i + 1) 0) default))
        rr).length := by
    rw [rotFold_length]
    refine hbound _ ?_
    rw [List.getD_eq_getElem (l := pos) 0 (by omega)]
    exact List.getElem_mem _
  refine ⟨?_, ?_, ?_⟩
  · intro i hi
    have hne : pos.getD (pos.length - 1) 0 ≠ pos.getD i 0 := by
      have := pos_strict_mono pos hord i (pos.length - 1) (by omega)
        (by omega)
      omega
    rw [getD_set_ne _ _ _ _ _ hne]
    exact hA i (by omega)
  · rw [getD_set_self _ _ _ _ hlenLast]
  · intro q hq
    have hne : pos.getD (pos.length - 1) 0 ≠ q := by
      intro hcon
      refine hq ?_
      rw [← hcon, List.getD_eq_getElem (l := pos) 0 (by omega)]
      exact List.getElem_mem _
    rw [getD_set_ne _ _ _ _ _ hne]
    refine hB q (fun i hi hcon => hq ?_)
    rw [← hcon, List.getD_eq_getElem (l := pos) 0 (by omega)]
    exact List.getElem_mem _

/-- Membership in the position list of a type-class. -/
theorem mem_typePositions (rs : List Resource) (t : Nat) (q : Nat) :
    q ∈ typePositions rs t ↔
      q < rs.length ∧ (rs.getD q default).header.rtype = t := by
  simp [typePositions, List.mem_filter, List.mem_range]

/-- The position list of a type-class is strictly increasing. -/
theorem typePositions_pairwise (rs : List Resource) (t : Nat) :
    (typePositions rs t).Pairwise (· < ·) :=
  List.Pairwise.sublist (List.filter_sublist _) (List.pairwise_lt_range _)

/-- The position list of a type-class is in range. -/
theorem typePositions_bound (rs : List Resource) (t : Nat) :
    ∀ p ∈ typePositions rs t, p < rs.length := by
  intro p hp
  exact ((mem_typePositions rs t p).mp hp).1

/-- Two sections of the same length with the same record type at every
index have the same type-class position lists. -/
theorem typePositions_congr (rs rs' : List Resource)
    (hlen : rs'.length = rs.length)
    (hty : ∀ q, (rs'.getD q default).header.rtype =
      (rs.getD q default).header.rtype) (t : Nat) :
    typePositions rs' t = typePositions rs t := by
  unfold typePositions
  rw [hlen]
  exact List.filter_congr (fun q _ => by rw [hty q])

/-- Rotating the records of one type-class (all carrying that type)
preserves the record type found at every index of the section. -/
theorem rotateRecords_rtype (rr : List Resource) (pos : List Nat) (t : Nat)
    (hord : pos.Pairwise (· < ·)) (hbound : ∀ p ∈ pos, p < rr.length)
    (htype : ∀ p ∈ pos, (rr.getD p default).header.rtype = t) :
    ∀ q, ((rotateRecords rr pos).getD q default).header.rtype =
      (rr.getD q default).header.rtype := by
  intro q
  by_cases hn : 2 ≤ pos.length
  · by_cases hq : q ∈ pos
    · obtain ⟨hrot, hlast, _⟩ := rotateRecords_getD rr pos hord hbound hn
      obtain ⟨i, hi, hiq⟩ := List.mem_iff_getElem.mp hq
      have hiq' : pos.getD i 0 = q := by
        rw [List.getD_eq_getElem (l := pos) 0 hi]
        exact hiq
      have hmem1 : ∀ j, j < pos.length → pos.getD j 0 ∈ pos := by
        intro j hj
        rw [List.getD_eq_getElem (l := pos) 0 hj]
        exact List.getElem_mem _
      rcases Nat.lt_or_ge (i + 1) pos.length with hi1 | hi1
      · rw [← hiq', hrot i hi1, htype _ (hmem1 _ hi1), htype _ (hmem1 _ hi)]
      · have hieq : i = pos.length - 1 := by omega
        subst hieq
        rw [← hiq', hlast, htype _ (hmem1 0 (by omega)),
          htype _ (hmem1 _ hi)]
    · obtain ⟨_, _, hout⟩ := rotateRecords_getD rr pos hord hbound hn
      rw [hout q hq]
  · unfold rotateRecords
    rw [if_pos (by omega)]

/-- Indices outside the rotated positions are untouched (any position
list). -/
theorem rotateRecords_getD_not_mem (rr : List Resource) (pos : List Nat)
    (hord : pos.Pairwise (· < ·)) (hbound : ∀ p ∈ pos, p < rr.length)
    (q : Nat) (hq : q ∉ pos) :
    (rotateRecords rr pos).getD q default = rr.getD q default := by
  by_cases hn : 2 ≤ pos.length
  · exact (rotateRecords_getD rr pos hord hbound hn).2.2 q hq
  · unfold rotateRecords
    rw [if_pos (by omega)]

/-- Rotating one position list leaves the extraction of any disjoint
position list unchanged. -/
theorem extractAt_rotateRecords_disjoint (rr : List Resource)
    (pos pos' : List Nat) (hord : pos.Pairwise (· < ·))
    (hbound : ∀ p ∈ pos, p < rr.length) (hdisj : ∀ q ∈ pos', q ∉ pos) :
    extractAt (rotateRecords rr pos) pos' = extractAt rr pos' := by
  unfold extractAt
  exact List.map_congr_left (fun q hq =>
    rotateRecords_getD_not_mem rr pos hord hbound q (hdisj q hq))

/-- `rotateRecords` is a single left rotation of the records at the
(strictly increasing, in-range) positions. -/
theorem extractAt_rotateRecords (rr : List Resource) (pos : List Nat)
    (hord : pos.Pairwise (· < ·)) (hbound : ∀ p ∈ pos, p < rr.length) :
    extractAt (rotateRecords rr pos) pos = (extractAt rr pos).rotate 1 := by
  by_cases hn : 2 ≤ pos.length
  · obtain ⟨hrot, hlast, _⟩ := rotateRecords_getD rr pos hord hbound hn
    refine List.ext_getElem ?_ ?_
    · simp [extractAt, List.length_rotate]
    · intro n h1 h2
      have hn1 : n < pos.length := by
        simpa [extractAt] using h1
      rw [List.getElem_rotate]
      simp only [extractAt, List.getElem_map, List.length_map]
      rcases Nat.lt_or_ge (n + 1) pos.length with hlt | hge
      · simp only [Nat.mod_eq_of_lt hlt]
        have h' := hrot n hlt
        rw [List.getD_eq_getElem (l := pos) 0 hn1,
          List.getD_eq_getElem (l := pos) 0 hlt] at h'
        exact h'
      · have hneq : n = pos.length - 1 := by omega
        have hmod : (n + 1) % pos.length = 0 := by
          have h1' : n + 1 = pos.length := by omega
          rw [h1', Nat.mod_self]
        simp only [hmod]
        have h' := hlast
        rw [List.getD_eq_getElem (l := pos) 0 (by omega),
          List.getD_eq_getElem (l := pos) 0 (by omega)] at h'
        simp only [hneq]
        exact h'
  · have hid : rotateRecords rr pos = rr := by
      unfold rotateRecords
      rw [if_pos (by omega)]
    rw [hid]
    rcases pos with _ | ⟨p, rest⟩
    · simp [extractAt]
    · rcases rest with _ | ⟨p2, rest2⟩
      · simp [extractAt, List.rotate_singleton]
      · exfalso
        apply hn
        simp

/-- Rotating by one is the identity on lists of at most one element. -/
theorem rotate_one_len_le_one {α : Type} (l : List α) (h : l.length ≤ 1) :
    l.rotate 1 = l := by
  rcases l with _ | ⟨a, rest⟩
  · simp
  · rcases rest with _ | ⟨b, rest2⟩
    · simp [List.rotate_singleton]
    · simp at h

/-- Different type-classes occupy disjoint positions. -/
theorem typePositions_disjoint (rs : List Resource) (t₁ t₂ : Nat)
    (h : t₁ ≠ t₂) : ∀ q ∈ typePositions rs t₁, q ∉ typePositions rs t₂ := by
  intro q hq hq₂
  obtain ⟨_, h₁⟩ := (mem_typePositions rs t₁ q).mp hq
  obtain ⟨_, h₂⟩ := (mem_typePositions rs t₂ q).mp hq₂
  exact h (h₁ ▸ h₂)

/-- The answers of `reorderMsg` with rotation, written as the four
successive class rotations. -/
theorem reorderMsg_answers_eq (msg : Message)
    (hlen : ¬ msg.answers.length ≤ 1) :
    (reorderMsg msg rotateRecords).answers =
      rotateRecords (rotateRecords (rotateRecords
        (rotateRecords msg.answers (typePositions msg.answers typeA))
        (typePositions msg.answers typeAAAA))
        (typePositions msg.answers typeMX))
        (typePositions msg.answers typeNS) := by
  unfold reorderMsg
  rw [if_neg hlen]

/-- One rotation stage, relative to the section the position lists were
computed from: length and per-index record type are preserved. -/
theorem stage_preserve (rr orig : List Resource) (t : Nat)
    (hlen : rr.length = orig.length)
    (hty : ∀ q, (rr.getD q default).header.rtype =
      (orig.getD q default).header.rtype) :
    (rotateRecords rr (typePositions orig t)).length = orig.length ∧
    (∀ q, ((rotateRecords rr (typePositions orig t)).getD q
        default).header.rtype = (orig.getD q default).header.rtype) := by
  have hbound : ∀ p ∈ typePositions orig t, p < rr.length := by
    intro p hp
    rw [hlen]
    exact typePositions_bound orig t p hp
  have htype : ∀ p ∈ typePositions orig t,
      (rr.getD p default).header.rtype = t := by
    intro p hp
    rw [hty p]
    exact ((mem_typePositions orig t p).mp hp).2
  refine ⟨by rw [rotateRecords_length, hlen], fun q => ?_⟩
  rw [rotateRecords_rtype rr (typePositions orig t) t
    (typePositions_pairwise _ _) hbound htype q]
  exact hty q

/-- One rotation stage of a different type-class leaves this type-class's
extraction unchanged. -/
theorem stage_extract_disjoint (rr orig : List Resource) (t u : Nat)
    (hneq : t ≠ u) (hlen : rr.length = orig.length) :
    extractAt (rotateRecords rr (typePositions orig u))
        (typePositions orig t) =
      extractAt rr (typePositions orig t) :=
  extractAt_rotateRecords_disjoint rr (typePositions orig u)
    (typePositions orig t) (typePositions_pairwise _ _)
    (fun p hp => hlen ▸ typePositions_bound orig u p hp)
    (typePositions_disjoint orig t u hneq)

/-- One rotation stage of this type-class rotates this type-class's
extraction by one. -/
theorem stage_extract_self (rr orig : List Resource) (t : Nat)
    (hlen : rr.length = orig.length) :
    extractAt (rotateRecords rr (typePositions orig t))
        (typePositions orig t) =
      (extractAt rr (typePositions orig t)).rotate 1 :=
  extractAt_rotateRecords rr (typePositions orig t)
    (typePositions_pairwise _ _)
    (fun p hp => hlen ▸ typePositions_bound orig t p hp)

/-- The full rotation reorder preserves the section length and the record
type at every index. -/
theorem reorderMsg_rtype_stable (msg : Message) :
    (reorderMsg msg rotateRecords).answers.length = msg.answers.length ∧
    (∀ q, ((reorderMsg msg rotateRecords).answers.getD q
        default).header.rtype =
      (msg.answers.getD q default).header.rtype) := by
  by_cases hlen : msg.answers.length ≤ 1
  · have hre : reorderMsg msg rotateRecords = msg := by
      unfold reorderMsg
      rw [if_pos hlen]
    rw [hre]
    exact ⟨rfl, fun q => rfl⟩
  · rw [reorderMsg_answers_eq msg hlen]
    have s1 := stage_preserve msg.answers msg.answers typeA rfl
      (fun q => rfl)
    have s2 := stage_preserve _ msg.answers typeAAAA s1.1 s1.2
    have s3 := stage_preserve _ msg.answers typeMX s2.1 s2.2
    exact stage_preserve _ msg.answers typeNS s3.1 s3.2

/-- A single rotation reorder left-rotates by one the records at the
positions of each type-class. -/
theorem reorderMsg_extract_rotate (msg : Message) (t : Nat)
    (ht : t ∈ reorderedTypes) :
    extractAt (reorderMsg msg rotateRecords).answers
        (typePositions msg.answers t) =
      (extractAt msg.answers (typePositions msg.answers t)).rotate 1 := by
  by_cases hlen : msg.answers.length ≤ 1
  · have hre : reorderMsg msg rotateRecords = msg := by
      unfold reorderMsg
      rw [if_pos hlen]
    rw [hre, rotate_one_len_le_one]
    calc (extractAt msg.answers (typePositions msg.answers t)).length
        = (typePositions msg.answers t).length := by simp [extractAt]
      _ ≤ (List.range msg.answers.length).length :=
          List.length_filter_le _ _
      _ ≤ 1 := by simpa using hlen
  · rw [reorderMsg_answers_eq msg hlen]
    have s1 := stage_preserve msg.answers msg.answers typeA rfl
      (fun q => rfl)
    have s2 := stage_preserve _ msg.answers typeAAAA s1.1 s1.2
    have s3 := stage_preserve _ msg.answers typeMX s2.1 s2.2
    simp only [reorderedTypes, List.mem_cons, List.not_mem_nil, or_false]
      at ht
    rcases ht with ht | ht | ht | ht <;> subst ht
    · rw [stage_extract_disjoint _ msg.answers typeA typeNS (by decide)
        s3.1]
      rw [stage_extract_disjoint _ msg.answers typeA typeMX (by decide)
        s2.1]
      rw [stage_extract_disjoint _ msg.answers typeA typeAAAA (by decide)
        s1.1]
      exact stage_extract_self msg.answers msg.answers typeA rfl
    · rw [stage_extract_disjoint _ msg.answers typeAAAA typeNS (by decide)
        s3.1]
      rw [stage_extract_disjoint _ msg.answers typeAAAA typeMX (by decide)
        s2.1]
      rw [stage_extract_self _ msg.answers typeAAAA s1.1]
      rw [stage_extract_disjoint _ msg.answers typeAAAA typeA (by decide)
        rfl]
    · rw [stage_extract_disjoint _ msg.answers typeMX typeNS (by decide)
        s3.1]
      rw [stage_extract_self _ msg.answers typeMX s2.1]
      rw [stage_extract_disjoint _ msg.answers typeMX typeAAAA (by decide)
        s1.1]
      rw [stage_extract_disjoint _ msg.answers typeMX typeA (by decide)
        rfl]
    · rw [stage_extract_self _ msg.answers typeNS s3.1]
      rw [stage_extract_disjoint _ msg.answers typeNS typeMX (by decide)
        s2.1]
      rw [stage_extract_disjoint _ msg.answers typeNS typeAAAA (by decide)
        s1.1]
      rw [stage_extract_disjoint _ msg.answers typeNS typeA (by decide)
        rfl]

/-- Records of types outside the four reordered classes are untouched by
the rotation reorder. -/
theorem reorderMsg_other_types (msg : Message) (q : Nat)
    (hother : (msg.answers.getD q default).header.rtype ∉ reorderedTypes) :
    (reorderMsg msg rotateRecords).answers.getD q default =
      msg.answers.getD q default := by
  by_cases hlen : msg.answers.length ≤ 1
  · have hre : reorderMsg msg rotateRecords = msg := by
      unfold reorderMsg
      rw [if_pos hlen]
    rw [hre]
  · rw [reorderMsg_answers_eq msg hlen]
    have hq : ∀ u, u ∈ reorderedTypes → q ∉ typePositions msg.answers u := by
      intro u hu hmem
      exact hother (((mem_typePositions _ _ _).mp hmem).2 ▸ hu)
    have s1 := stage_preserve msg.answers msg.answers typeA rfl
      (fun _ => rfl)
    have s2 := stage_preserve _ msg.answers typeAAAA s1.1 s1.2
    have s3 := stage_preserve _ msg.answers typeMX s2.1 s2.2
    rw [rotateRecords_getD_not_mem _ _ (typePositions_pairwise _ _)
      (fun p hp => by
        rw [s3.1]; exact typePositions_bound _ _ p hp)
      q (hq typeNS (by decide))]
    rw [rotateRecords_getD_not_mem _ _ (typePositions_pairwise _ _)
      (fun p hp => by
        rw [s2.1]; exact typePositions_bound _ _ p hp)
      q (hq typeMX (by decide))]
    rw [rotateRecords_getD_not_mem _ _ (typePositions_pairwise _ _)
      (fun p hp => by
        rw [s1.1]; exact typePositions_bound _ _ p hp)
      q (hq typeAAAA (by decide))]
    exact rotateRecords_getD_not_mem _ _ (typePositions_pairwise _ _)
      (typePositions_bound _ _) q (hq typeA (by decide))

/-- The type-class position lists are stable under the rotation reorder. -/
theorem reorderMsg_typePositions (msg : Message) (t : Nat) :
    typePositions (reorderMsg msg rotateRecords).answers t =
      typePositions msg.answers t :=
  typePositions_congr msg.answers (reorderMsg msg rotateRecords).answers
    (reorderMsg_rtype_stable msg).1 (reorderMsg_rtype_stable msg).2 t

/-- Iterating the rotation reorder preserves length and per-index record
types. -/
theorem reorderMsg_iterate_rtype (msg : Message) (j : Nat) :
    ((fun m => reorderMsg m rotateRecords)^[j] msg).answers.length =
      msg.answers.length ∧
    ∀ q, (((fun m => reorderMsg m rotateRecords)^[j] msg).answers.getD q
        default).header.rtype =
      (msg.answers.getD q default).header.rtype := by
  induction j with
  | zero => exact ⟨rfl, fun _ => rfl⟩
  | succ j ih =>
    rw [Function.iterate_succ_apply']
    obtain ⟨hl, ht⟩ :=
      reorderMsg_rtype_stable ((fun m => reorderMsg m rotateRecords)^[j] msg)
    exact ⟨hl.trans ih.1, fun q => (ht q).trans (ih.2 q)⟩

/-- Iterating the rotation reorder `j` times rotates each type-class by
`j`. -/
theorem reorderMsg_iterate_extract (msg : Message) (t : Nat)
    (ht : t ∈ reorderedTypes) (j : Nat) :
    extractAt ((fun m => reorderMsg m rotateRecords)^[j] msg).answers
        (typePositions msg.answers t) =
      (extractAt msg.answers (typePositions msg.answers t)).rotate j := by
  induction j with
  | zero => simp
  | succ j ih =>
    rw [Function.iterate_succ_apply']
    have hpos : typePositions msg.answers t =
        typePositions
          ((fun m => reorderMsg m rotateRecords)^[j] msg).answers t :=
      (typePositions_congr msg.answers _ (reorderMsg_iterate_rtype msg j).1
        (reorderMsg_iterate_rtype msg j).2 t).symm
    rw [hpos,
      reorderMsg_extract_rotate
        ((fun m => reorderMsg m rotateRecords)^[j] msg) t ht,
      ← hpos, ih, List.rotate_rotate]

/-- C8: the rotation reorder left-rotates by one the records occupying the
positions of each type-class (A, AAAA, MX, NS) within the answer section,
independently per type-class; records of other types keep their absolute
positions; and for a type-class with k records, applying the rotation k
times restores the original order of that type-class. -/
theorem c8_rotation_type_classes (msg : Message) (t : Nat)
    (ht : t ∈ reorderedTypes) :
    extractAt (reorderMsg msg rotateRecords).answers
        (typePositions msg.answers t) =
      (extractAt msg.answers (typePositions msg.answers t)).rotate 1 ∧
    (∀ q, (msg.answers.getD q default).header.rtype ∉ reorderedTypes →
      (reorderMsg msg rotateRecords).answers.getD q default =
        msg.answers.getD q default) ∧
    extractAt
        ((fun m => reorderMsg m rotateRecords)^[
          (typePositions msg.answers t).length] msg).answers
        (typePositions msg.answers t) =
      extractAt msg.answers (typePositions msg.answers t) := by
  refine ⟨reorderMsg_extract_rotate msg t ht,
    fun q hq => reorderMsg_other_types msg q hq, ?_⟩
  rw [reorderMsg_iterate_extract msg t ht]
  have hlen : (extractAt msg.answers (typePositions msg.answers t)).length =
      (typePositions msg.answers t).length := by
    simp [extractAt]
  rw [← hlen, List.rotate_length]

/-- Witness for C8: the CNAME + A + A response; its A class (positions 1
and 2) is swapped by one reorder and restored by two, while the CNAME at
position 0 stays. -/
theorem c8_rotation_type_classes_witness :
    typeA ∈ reorderedTypes ∧
      extractAt (reorderMsg msgCAAFix rotateRecords).answers
          (typePositions msgCAAFix.answers typeA) =
        (extractAt msgCAAFix.answers
          (typePositions msgCAAFix.answers typeA)).rotate 1 ∧
      (reorderMsg msgCAAFix rotateRecords).answers.getD 0 default =
        msgCAAFix.answers.getD 0 default ∧
      extractAt
          ((fun m => reorderMsg m rotateRecords)^[2] msgCAAFix).answers
          (typePositions msgCAAFix.answers typeA) =
        extractAt msgCAAFix.answers
          (typePositions msgCAAFix.answers typeA) := by
  have h := c8_rotation_type_classes msgCAAFix typeA (by decide)
  refine ⟨by decide, h.1, h.2.1 0 (by decide), ?_⟩
  have h2 := h.2.2
  have hlen : (typePositions msgCAAFix.answers typeA).length = 2 := by
    decide
  rw [hlen] at h2
  exact h2

/-! ### Association-list facts about the map, table and instrumentation -/

/-- A key misses iff no binding carries it. -/
theorem mapFind_eq_none_iff (k : CacheKey) (m : List (CacheKey × EntryId)) :
    mapFind k m = none ↔ ∀ p ∈ m, p.1 ≠ k := by
  unfold mapFind
  rw [Option.map_eq_none', List.find?_eq_none]
  constructor
  · intro h p hp
    have := h p hp
    simpa using this
  · intro h p hp
    simpa using h p hp

/-- Deleting an absent key is a no-op. -/
theorem mapErase_of_none (k : CacheKey) (m : List (CacheKey × EntryId))
    (h : mapFind k m = none) : mapErase k m = m := by
  unfold mapErase
  rw [List.filter_eq_self]
  intro p hp
  have := (mapFind_eq_none_iff k m).mp h p hp
  simpa using this

/-- A found binding is a member. -/
theorem mapFind_mem (k : CacheKey) (v : EntryId)
    (m : List (CacheKey × EntryId)) (h : mapFind k m = some v) :
    (k, v) ∈ m := by
  unfold mapFind at h
  rw [Option.map_eq_some'] at h
  obtain ⟨p, hp, hv⟩ := h
  have hk := List.find?_some hp
  have hmem := List.mem_of_find?_eq_some hp
  have : p.1 = k := by simpa using hk
  have hpeq : p = (k, v) := by
    cases p
    simp_all
  rw [← hpeq]
  exact hmem

/-- Under unique keys, membership determines the found binding. -/
theorem mapFind_of_mem (k : CacheKey) (v : EntryId)
    (m : List (CacheKey × EntryId))
    (hkeys : (m.map (fun p => p.1)).Nodup) (h : (k, v) ∈ m) :
    mapFind k m = some v := by
  induction m with
  | nil => simp at h
  | cons p m ih =>
    rcases List.mem_cons.mp h with hph | hpm
    · rw [← hph]
      unfold mapFind
      simp [List.find?]
    · have hkm : k ∈ m.map (fun p => p.1) :=
        List.mem_map.mpr ⟨(k, v), hpm, rfl⟩
      have hpk : p.1 ≠ k := by
        intro hcon
        rw [List.map_cons, List.nodup_cons] at hkeys
        exact hkeys.1 (hcon ▸ hkm)
      unfold mapFind
      rw [List.find?_cons_of_neg _ (by simpa using hpk)]
      have := ih (by
        rw [List.map_cons, List.nodup_cons] at hkeys
        exact hkeys.2) hpm
      exact this

/-- Deleting one key preserves the other bindings' reads. -/
theorem mapFind_mapErase_ne (k k' : CacheKey)
    (m : List (CacheKey × EntryId)) (h : k' ≠ k) :
    mapFind k' (mapErase k m) = mapFind k' m := by
  induction m with
  | nil => rfl
  | cons p m ih =>
    by_cases hpk : p.1 = k
    · have hstep : mapErase k (p :: m) = mapErase k m := by
        unfold mapErase
        rw [List.filter_cons_of_neg (by simp [hpk])]
      rw [hstep, ih]
      unfold mapFind
      rw [List.find?_cons_of_neg _ (by simp [hpk]; exact Ne.symm h)]
    · have hstep : mapErase k (p :: m) = p :: mapErase k m := by
        unfold mapErase
        rw [List.filter_cons_of_pos (by simpa using hpk)]
      rw [hstep]
      by_cases hpk' : p.1 = k'
      · unfold mapFind
        rw [List.find?_cons_of_pos _ (by simpa using hpk'),
          List.find?_cons_of_pos _ (by simpa using hpk')]
      · unfold mapFind at ih ⊢
        rw [List.find?_cons_of_neg _ (by simpa using hpk'),
          List.find?_cons_of_neg _ (by simpa using hpk')]
        exact ih

/-- Deleted bindings were members. -/
theorem mem_of_mem_mapErase (k : CacheKey) (p : CacheKey × EntryId)
    (m : List (CacheKey × EntryId)) (h : p ∈ mapErase k m) : p ∈ m :=
  List.mem_of_mem_filter h

/-- `mapErase` keeps key uniqueness. -/
theorem mapErase_keys_nodup (k : CacheKey) (m : List (CacheKey × EntryId))
    (h : (m.map (fun p => p.1)).Nodup) :
    ((mapErase k m).map (fun p => p.1)).Nodup :=
  ((List.filter_sublist m).map _).nodup h

/-- `mapErase` keeps value uniqueness. -/
theorem mapErase_vals_nodup (k : CacheKey) (m : List (CacheKey × EntryId))
    (h : (m.map (fun p => p.2)).Nodup) :
    ((mapErase k m).map (fun p => p.2)).Nodup :=
  ((List.filter_sublist m).map _).nodup h

/-- Deleting the key of a present binding under unique keys and values:
the surviving values are exactly the other values. -/
theorem mapErase_vals_iff (k : CacheKey) (v : EntryId)
    (m : List (CacheKey × EntryId))
    (hkeys : (m.map (fun p => p.1)).Nodup)
    (hvals : (m.map (fun p => p.2)).Nodup) (hmem : (k, v) ∈ m) :
    ∀ u, u ∈ (mapErase k m).map (fun p => p.2) ↔
      u ∈ m.map (fun p => p.2) ∧ u ≠ v := by
  intro u
  constructor
  · intro hu
    obtain ⟨p, hp, hpu⟩ := List.mem_map.mp hu
    have hpm := mem_of_mem_mapErase k p m hp
    refine ⟨List.mem_map.mpr ⟨p, hpm, hpu⟩, ?_⟩
    intro hcon
    have hpk : ¬ p.1 = k := by
      have := List.of_mem_filter hp
      simpa using this
    have hpeq : p = (k, v) :=
      List.inj_on_of_nodup_map hvals hpm hmem (by rw [hpu, hcon])
    exact hpk (by rw [hpeq])
  · rintro ⟨hu, hne⟩
    obtain ⟨p, hpm, hpu⟩ := List.mem_map.mp hu
    have hpk : ¬ p.1 = k := by
      intro hcon
      have hpeq : p = (k, v) :=
        List.inj_on_of_nodup_map hkeys hpm hmem (by rw [hcon])
      exact hne (by rw [← hpu, hpeq])
    refine List.mem_map.mpr ⟨p, ?_, hpu⟩
    exact List.mem_filter.mpr ⟨hpm, by simpa using hpk⟩

/-- Deleting the key of a present binding under unique keys removes
exactly one binding. -/
theorem mapErase_length (k : CacheKey) (v : EntryId)
    (m : List (CacheKey × EntryId))
    (hkeys : (m.map (fun p => p.1)).Nodup) (hmem : (k, v) ∈ m) :
    (mapErase k m).length + 1 = m.length := by
  induction m with
  | nil => simp at hmem
  | cons p m ih =>
    rw [List.map_cons, List.nodup_cons] at hkeys
    by_cases hpk : p.1 = k
    · have hnone : mapFind k m = none := by
        rw [mapFind_eq_none_iff]
        intro p' hp' hcon
        exact hkeys.1 (hpk ▸ hcon ▸ List.mem_map.mpr ⟨p', hp', rfl⟩)
      have hstep : mapErase k (p :: m) = mapErase k m := by
        unfold mapErase
        rw [List.filter_cons_of_neg (by simp [hpk])]
      rw [hstep, mapErase_of_none k m hnone]
      simp
    · have hstep : mapErase k (p :: m) = p :: mapErase k m := by
        unfold mapErase
        rw [List.filter_cons_of_pos (by simpa using hpk)]
      have hmem' : (k, v) ∈ m := by
        rcases List.mem_cons.mp hmem with hh | hh
        · exact absurd (by rw [← hh]) hpk
        · exact hh
      rw [hstep, List.length_cons, ih hkeys.2 hmem']
      rfl

/-- Reading the just-recorded access time. -/
theorem accGet_accSet_self (acc : AccMap) (id : EntryId) (t : Int) :
    accGet (accSet acc id t) id = t := by
  simp [accGet, accSet, List.find?]

/-- Recording one entry's access leaves the others' times. -/
theorem accGet_accSet_ne (acc : AccMap) (id id' : EntryId) (t : Int)
    (h : id' ≠ id) : accGet (accSet acc id t) id' = accGet acc id' := by
  unfold accGet accSet
  rw [List.find?_cons_of_neg _ (by simpa using Ne.symm h)]
  induction acc with
  | nil => rfl
  | cons p acc ih =>
    by_cases hp : p.1 = id
    · rw [List.filter_cons_of_neg (by simp [hp]),
        List.find?_cons_of_neg _ (by simp [hp]; exact Ne.symm h)]
      exact ih
    · rw [List.filter_cons_of_pos (by simpa using hp)]
      by_cases hp' : p.1 = id'
      · rw [List.find?_cons_of_pos _ (by simpa using hp'),
          List.find?_cons_of_pos _ (by simpa using hp')]
      · rw [List.find?_cons_of_neg _ (by simpa using hp'),
          List.find?_cons_of_neg _ (by simpa using hp')]
        exact ih

/-- Dereferencing the just-written table slot. -/
theorem entsFind_entsInsert_self (ents : List (EntryId × CacheEntry))
    (id : EntryId) (e : CacheEntry) :
    entsFind id (entsInsert id e ents) = some e := by
  simp [entsFind, entsInsert, List.find?]

/-- Writing one table slot leaves the other slots. -/
theorem entsFind_entsInsert_ne (ents : List (EntryId × CacheEntry))
    (id id' : EntryId) (e : CacheEntry) (h : id' ≠ id) :
    entsFind id' (entsInsert id e ents) = entsFind id' ents := by
  unfold entsFind entsInsert
  rw [List.find?_cons_of_neg _ (by simpa using Ne.symm h)]
  induction ents with
  | nil => rfl
  | cons p ents ih =>
    by_cases hp : p.1 = id
    · rw [List.filter_cons_of_neg (by simp [hp]),
        List.find?_cons_of_neg _ (by simp [hp]; exact Ne.symm h)]
      exact ih
    · rw [List.filter_cons_of_pos (by simpa using hp)]
      by_cases hp' : p.1 = id'
      · rw [List.find?_cons_of_pos _ (by simpa using hp'),
          List.find?_cons_of_pos _ (by simpa using hp')]
      · rw [List.find?_cons_of_neg _ (by simpa using hp'),
          List.find?_cons_of_neg _ (by simpa using hp')]
        exact ih

/-- The invariant weakens along time. -/
theorem cacheInv_mono (K tmin tmin' : Int) (c : CacheState) (acc : AccMap)
    (h : CacheInv K tmin c acc) (ht : tmin ≤ tmin') :
    CacheInv K tmin' c acc := by
  obtain ⟨h1, h2, h3, h4, h5, h6, h7, h8, h9⟩ := h
  exact ⟨h1, h2, h3, h4, h5, h6, fun id hid => le_trans (h7 id hid) ht,
    h8, h9⟩

/-- The invariant holds for the fresh cache. -/
theorem cacheInv_init (K tmin : Int) : CacheInv K tmin initState [] := by
  refine ⟨List.nodup_nil, ?_, List.nodup_nil, List.nodup_nil, ?_, ?_, ?_,
    List.Pairwise.nil, ?_⟩ <;> simp [initState] <;> omega

/-- A lookup (at a later time) preserves the invariant. -/
theorem cacheInv_lookup (cfg : Config)
    (shuf : List Resource → List Nat → List Resource) (K tmin now : Int)
    (c : CacheState) (acc : AccMap) (q : Question) (rd : Bool)
    (hInv : CacheInv K tmin c acc) (ht : tmin < now) :
    CacheInv K now (istepOp cfg shuf (c, acc) (.lookupOp q rd now)).1
      (istepOp cfg shuf (c, acc) (.lookupOp q rd now)).2 := by
  obtain ⟨hNodup, hIff, hKeys, hVals, hKeyOf, hFresh, hAcc, hSorted,
    hBound⟩ := hInv
  unfold istepOp stepOp touchedId lookup CacheOp.time
  dsimp only
  cases hfind : mapFind ⟨q, rd⟩ c.m with
  | none =>
    exact cacheInv_mono K tmin now c acc
      ⟨hNodup, hIff, hKeys, hVals, hKeyOf, hFresh, hAcc, hSorted, hBound⟩
      (le_of_lt ht)
  | some id =>
    dsimp only
    cases hents : entsFind id c.ents with
    | none =>
      exact cacheInv_mono K tmin now c acc
        ⟨hNodup, hIff, hKeys, hVals, hKeyOf, hFresh, hAcc, hSorted, hBound⟩
        (le_of_lt ht)
    | some e =>
      dsimp only
      have hmemp : (⟨q, rd⟩, id) ∈ c.m := mapFind_mem _ _ _ hfind
      have hidl : id ∈ c.l :=
        (hIff id).mpr (List.mem_map.mpr ⟨_, hmemp, rfl⟩)
      by_cases hexp : e.expires < now
      · simp only [if_pos hexp]
        refine ⟨?_, ?_, ?_, ?_, ?_, ?_, ?_, ?_, ?_⟩
        · exact (List.erase_sublist _ _).nodup hNodup
        · intro v
          unfold listRemove
          rw [hNodup.mem_erase_iff]
          constructor
          · rintro ⟨hvne, hvl⟩
            exact (mapErase_vals_iff _ id c.m hKeys hVals hmemp v).mpr
              ⟨(hIff v).mp hvl, hvne⟩
          · intro hv
            obtain ⟨hvm, hvne⟩ :=
              (mapErase_vals_iff _ id c.m hKeys hVals hmemp v).mp hv
            exact ⟨hvne, (hIff v).mpr hvm⟩
        · exact mapErase_keys_nodup _ _ hKeys
        · exact mapErase_vals_nodup _ _ hVals
        · intro p hp
          exact hKeyOf p (mem_of_mem_mapErase _ _ _ hp)
        · intro v hv
          exact hFresh v ((List.erase_sublist _ _).mem hv)
        · intro v hv
          exact le_trans (hAcc v ((List.erase_sublist _ _).mem hv))
            (le_of_lt ht)
        · exact List.Pairwise.sublist (List.erase_sublist _ _) hSorted
        · intro hK
          have hlen := mapErase_length _ id c.m hKeys hmemp
          have := hBound hK
          simp only []
          omega
      · simp only [if_neg hexp]
        have hmemerase : ∀ v, v ∈ listRemove id c.l ↔ v ≠ id ∧ v ∈ c.l :=
          fun v => hNodup.mem_erase_iff
        refine ⟨?_, ?_, hKeys, hVals, ?_, ?_, ?_, ?_, hBound⟩
        · unfold listPushFront listRemove
          exact List.nodup_cons.mpr
            ⟨hNodup.not_mem_erase, (List.erase_sublist _ _).nodup hNodup⟩
        · intro v
          unfold listPushFront listRemove
          rw [List.mem_cons, hNodup.mem_erase_iff]
          constructor
          · rintro (hveq | ⟨_, hvl⟩)
            · subst hveq
              exact (hIff v).mp hidl
            · exact (hIff v).mp hvl
          · intro hv
            by_cases hvid : v = id
            · exact Or.inl hvid
            · exact Or.inr ⟨hvid, (hIff v).mpr hv⟩
        · intro p hp
          obtain ⟨ep, hep, hkey⟩ := hKeyOf p hp
          by_cases hreo : (cfg.reordering == 2) = true
          · simp only [if_pos hreo]
            by_cases hpid : p.2 = id
            · subst hpid
              rw [hep] at hents
              refine ⟨_, entsFind_entsInsert_self _ _ _, ?_⟩
              cases hents
              exact hkey
            · refine ⟨ep, ?_, hkey⟩
              rw [entsFind_entsInsert_ne _ _ _ _ hpid]
              exact hep
          · simp only [if_neg hreo]
            exact ⟨ep, hep, hkey⟩
        · intro v hv
          unfold listPushFront listRemove at hv
          rcases List.mem_cons.mp hv with hveq | hvl
          · exact hveq ▸ hFresh id hidl
          · exact hFresh v ((List.erase_sublist _ _).mem hvl)
        · intro v hv
          unfold listPushFront listRemove at hv
          rcases List.mem_cons.mp hv with hveq | hvl
          · rw [hveq, accGet_accSet_self]
          · obtain ⟨hvne, hvl'⟩ := (hmemerase v).mp hvl
            rw [accGet_accSet_ne _ _ _ _ hvne]
            exact le_trans (hAcc v hvl') (le_of_lt ht)
        · unfold listPushFront listRemove
          refine List.Pairwise.cons ?_ ?_
          · intro b hb
            obtain ⟨hbne, hbl⟩ := (hmemerase b).mp hb
            rw [accGet_accSet_self, accGet_accSet_ne _ _ _ _ hbne]
            exact lt_of_le_of_lt (hAcc b hbl) ht
          · refine List.Pairwise.imp_of_mem ?_
              (List.Pairwise.sublist (List.erase_sublist _ _) hSorted)
            intro a b ha hb hab
            obtain ⟨hane, _⟩ := (hmemerase a).mp ha
            obtain ⟨hbne, _⟩ := (hmemerase b).mp hb
            rw [accGet_accSet_ne _ _ _ _ hane,
              accGet_accSet_ne _ _ _ _ hbne]
            exact hab

/-- The back of a pushed-front nonempty list is the old last element. -/
theorem listBack_pushFront (a : EntryId) (l : List EntryId) (h : l ≠ []) :
    listBack (listPushFront a l) = some (l.getLast h) := by
  unfold listBack listPushFront
  cases l with
  | nil => exact absurd rfl h
  | cons b l => rw [List.getLast?_cons_cons, List.getLast?_eq_getLast]

/-- In a front-to-back strictly newest-to-oldest list, the last element's
recorded time is strictly below every other element's. -/
theorem getLast_oldest (l : List EntryId) (acc : AccMap) (h : l ≠ [])
    (hSorted : l.Pairwise (fun a b => accGet acc b < accGet acc a))
    (hNodup : l.Nodup) :
    ∀ a ∈ l, a ≠ l.getLast h → accGet acc (l.getLast h) < accGet acc a := by
  intro a ha hne
  have hsplit := List.dropLast_append_getLast h
  rw [← hsplit] at hSorted ha
  rw [List.pairwise_append] at hSorted
  rcases List.mem_append.mp ha with hin | hin
  · exact hSorted.2.2 a hin _ (List.mem_singleton.mpr rfl)
  · exact absurd (List.mem_singleton.mp hin) hne

/-- A store of a fingerprint absent from the map (at a later time)
preserves the invariant. -/
theorem cacheInv_store (cfg : Config)
    (shuf : List Resource → List Nat → List Resource) (K tmin now : Int)
    (c : CacheState) (acc : AccMap) (q : Question) (rd : Bool)
    (msg : Message) (ttl : Nat) (neg : Bool) (hK : cfg.maxSize = K)
    (hInv : CacheInv K tmin c acc) (ht : tmin < now)
    (hfresh : mapFind ⟨q, rd⟩ c.m = none) :
    CacheInv K now
      (istepOp cfg shuf (c, acc) (.storeOp q rd msg ttl neg now)).1
      (istepOp cfg shuf (c, acc) (.storeOp q rd msg ttl neg now)).2 := by
  obtain ⟨hNodup, hIff, hKeys, hVals, hKeyOf, hFresh, hAcc, hSorted,
    hBound⟩ := hInv
  have hNidL : c.nextId ∉ c.l := fun hmem =>
    absurd (hFresh _ hmem) (Nat.lt_irrefl _)
  have hNidVals : c.nextId ∉ c.m.map (fun p => p.2) :=
    fun hmem => hNidL ((hIff _).mpr hmem)
  have hKNotKeys : ∀ p ∈ c.m, p.1 ≠ ⟨q, rd⟩ :=
    (mapFind_eq_none_iff _ _).mp hfresh
  have hins : mapInsert ⟨q, rd⟩ c.nextId c.m =
      (⟨q, rd⟩, c.nextId) :: c.m := by
    unfold mapInsert
    rw [mapErase_of_none _ _ hfresh]
  have hvalsfresh : ∀ p ∈ c.m, p.2 ≠ c.nextId := by
    intro p hp hcon
    exact hNidVals (hcon ▸ List.mem_map.mpr ⟨p, hp, rfl⟩)
  unfold istepOp stepOp touchedId put CacheOp.time
  dsimp only
  rw [hins]
  -- facts for both branches about the pushed state
  have hND : (c.nextId :: c.l).Nodup := List.nodup_cons.mpr ⟨hNidL, hNodup⟩
  have hIff' : ∀ v, v ∈ c.nextId :: c.l ↔
      v ∈ ((⟨q, rd⟩, c.nextId) :: c.m).map (fun p => p.2) := by
    intro v
    rw [List.map_cons, List.mem_cons, List.mem_cons]
    exact or_congr Iff.rfl (hIff v)
  have hKeys' : (((⟨q, rd⟩, c.nextId) :: c.m).map
      (fun p => p.1)).Nodup := by
    rw [List.map_cons, List.nodup_cons]
    exact ⟨fun hmem => by
      obtain ⟨p, hp, hpk⟩ := List.mem_map.mp hmem
      exact hKNotKeys p hp hpk, hKeys⟩
  have hVals' : (((⟨q, rd⟩, c.nextId) :: c.m).map
      (fun p => p.2)).Nodup := by
    rw [List.map_cons, List.nodup_cons]
    exact ⟨hNidVals, hVals⟩
  have hAcc' : ∀ v ∈ c.nextId :: c.l, accGet (accSet acc c.nextId now) v
      ≤ now := by
    intro v hv
    rcases List.mem_cons.mp hv with hveq | hvl
    · rw [hveq, accGet_accSet_self]
    · have hvne : v ≠ c.nextId := fun hcon => hNidL (hcon ▸ hvl)
      rw [accGet_accSet_ne _ _ _ _ hvne]
      exact le_trans (hAcc v hvl) (le_of_lt ht)
  have hSorted' : (c.nextId :: c.l).Pairwise
      (fun a b => accGet (accSet acc c.nextId now) b <
        accGet (accSet acc c.nextId now) a) := by
    refine List.Pairwise.cons ?_ ?_
    · intro b hb
      have hbne : b ≠ c.nextId := fun hcon => hNidL (hcon ▸ hb)
      rw [accGet_accSet_self, accGet_accSet_ne _ _ _ _ hbne]
      exact lt_of_le_of_lt (hAcc b hb) ht
    · refine List.Pairwise.imp_of_mem ?_ hSorted
      intro a b ha hb hab
      have hane : a ≠ c.nextId := fun hcon => hNidL (hcon ▸ ha)
      have hbne : b ≠ c.nextId := fun hcon => hNidL (hcon ▸ hb)
      rw [accGet_accSet_ne _ _ _ _ hane, accGet_accSet_ne _ _ _ _ hbne]
      exact hab
  have hKeyOf' : ∀ p ∈ (⟨q, rd⟩, c.nextId) :: c.m,
      ∃ e, entsFind p.2 (entsInsert c.nextId
        { key := ⟨q, rd⟩, msg := msg, negative := neg,
          expires := now + (ttl : Int) * nsPerSec, created := now }
        c.ents) = some e ∧ e.key = p.1 := by
    intro p hp
    rcases List.mem_cons.mp hp with hph | hpm
    · rw [hph]
      exact ⟨_, entsFind_entsInsert_self _ _ _, rfl⟩
    · obtain ⟨ep, hep, hkey⟩ := hKeyOf p hpm
      refine ⟨ep, ?_, hkey⟩
      rw [entsFind_entsInsert_ne _ _ _ _ (hvalsfresh p hpm)]
      exact hep
  have hFresh' : ∀ v ∈ c.nextId :: c.l, v < c.nextId + 1 := by
    intro v hv
    rcases List.mem_cons.mp hv with hveq | hvl
    · rw [hveq]
      exact Nat.lt_succ_self _
    · exact lt_trans (hFresh v hvl) (Nat.lt_succ_self _)
  by_cases hcond : cfg.maxSize > 0 ∧
      cfg.maxSize < ((((⟨q, rd⟩, c.nextId) :: c.m).length : Nat) : Int)
  · simp only [if_pos hcond]
    -- the map is full: an eviction fires
    rw [hK] at hcond
    have hKpos : 0 < K := hcond.1
    have hlenK : (c.m.length : Int) = K := by
      have h1 := hBound hKpos
      have h2 := hcond.2
      rw [List.length_cons] at h2
      push_cast at h2 ⊢
      exact le_antisymm h1 (Int.lt_add_one_iff.mp h2)
    have hmne : c.m ≠ [] := by
      intro hcon
      rw [hcon] at hlenK
      simp at hlenK
      omega
    have hlne : c.l ≠ [] := by
      intro hcon
      obtain ⟨p, hp⟩ := List.exists_mem_of_ne_nil c.m hmne
      have := (hIff p.2).mpr (List.mem_map.mpr ⟨p, hp, rfl⟩)
      rw [hcon] at this
      simp at this
    rw [listBack_pushFront _ _ hlne]
    dsimp only
    have hevmem : c.l.getLast hlne ∈ c.l := List.getLast_mem hlne
    have hevne : c.l.getLast hlne ≠ c.nextId :=
      Nat.ne_of_lt (hFresh _ hevmem)
    obtain ⟨pb, hpb, hpbval⟩ :=
      List.mem_map.mp ((hIff (c.l.getLast hlne)).mp hevmem)
    obtain ⟨eb, heb, hebkey⟩ := hKeyOf pb hpb
    rw [hpbval] at heb
    rw [entsFind_entsInsert_ne _ _ _ _ hevne, heb]
    dsimp only
    have hpbpair : (pb.1, c.l.getLast hlne) = pb := by
      rw [← hpbval]
    have hpbm' : (eb.key, c.l.getLast hlne) ∈
        (⟨q, rd⟩, c.nextId) :: c.m := by
      rw [hebkey]
      exact List.mem_cons_of_mem _ (hpbpair ▸ hpb)
    refine ⟨?_, ?_, ?_, ?_, ?_, ?_, ?_, ?_, ?_⟩
    · exact (List.erase_sublist _ _).nodup hND
    · intro v
      unfold listRemove listPushFront
      rw [hND.mem_erase_iff]
      constructor
      · rintro ⟨hvne, hvl⟩
        exact (mapErase_vals_iff _ _ _ hKeys' hVals' hpbm' v).mpr
          ⟨(hIff' v).mp hvl, hvne⟩
      · intro hv
        obtain ⟨hvm, hvne⟩ :=
          (mapErase_vals_iff _ _ _ hKeys' hVals' hpbm' v).mp hv
        exact ⟨hvne, (hIff' v).mpr hvm⟩
    · exact mapErase_keys_nodup _ _ hKeys'
    · exact mapErase_vals_nodup _ _ hVals'
    · intro p hp
      exact hKeyOf' p (mem_of_mem_mapErase _ _ _ hp)
    · intro v hv
      exact hFresh' v ((List.erase_sublist _ _).mem hv)
    · intro v hv
      exact hAcc' v ((List.erase_sublist _ _).mem hv)
    · exact List.Pairwise.sublist (List.erase_sublist _ _) hSorted'
    · intro _
      have hlen := mapErase_length eb.key (c.l.getLast hlne)
        ((⟨q, rd⟩, c.nextId) :: c.m) hKeys' hpbm'
      rw [List.length_cons] at hlen
      push_cast
      omega
  · simp only [if_neg hcond]
    refine ⟨hND, hIff', hKeys', hVals', hKeyOf', hFresh', hAcc',
      hSorted', ?_⟩
    intro hKpos
    rw [List.length_cons]
    push_cast
    rw [Classical.not_and_iff_or_not_not] at hcond
    rcases hcond with h1 | h2
    · omega
    · rw [List.length_cons] at h2
      push_cast at h2
      omega

/-- The instrumentation does not feed back into the real state. -/
theorem irunOps_fst (cfg : Config)
    (shuf : List Resource → List Nat → List Resource) :
    ∀ (ops : List CacheOp) (st : CacheState × AccMap),
      (irunOps cfg shuf st ops).1 = runOps cfg shuf st.1 ops := by
  intro ops
  induction ops with
  | nil => intro st; rfl
  | cons op ops ih =>
    intro st
    exact ih (istepOp cfg shuf st op)

/-- Along a valid run, the invariant is maintained and the remaining
operations stay valid. -/
theorem cacheInv_run (cfg : Config)
    (shuf : List Resource → List Nat → List Resource) (K : Int)
    (hK : cfg.maxSize = K) :
    ∀ (pre rest : List CacheOp) (c : CacheState) (acc : AccMap)
      (tmin : Int), CacheInv K tmin c acc →
      validOps cfg shuf c tmin (pre ++ rest) = true →
      ∃ tmin', tmin ≤ tmin' ∧
        CacheInv K tmin' (irunOps cfg shuf (c, acc) pre).1
          (irunOps cfg shuf (c, acc) pre).2 ∧
        validOps cfg shuf (irunOps cfg shuf (c, acc) pre).1 tmin' rest
          = true := by
  intro pre
  induction pre with
  | nil =>
    intro rest c acc tmin hInv hvalid
    exact ⟨tmin, le_refl _, hInv, hvalid⟩
  | cons op pre ih =>
    intro rest c acc tmin hInv hvalid
    rw [List.cons_append] at hvalid
    unfold validOps at hvalid
    rw [Bool.and_eq_true, Bool.and_eq_true] at hvalid
    obtain ⟨⟨ht, hside⟩, hrest⟩ := hvalid
    rw [decide_eq_true_eq] at ht
    have hInv' : CacheInv K op.time (istepOp cfg shuf (c, acc) op).1
        (istepOp cfg shuf (c, acc) op).2 := by
      cases op with
      | lookupOp q rd now =>
        exact cacheInv_lookup cfg shuf K tmin now c acc q rd hInv ht
      | storeOp q rd msg ttl neg now =>
        refine cacheInv_store cfg shuf K tmin now c acc q rd msg ttl neg
          hK hInv ht ?_
        rw [← Option.isNone_iff_eq_none]
        exact hside
    obtain ⟨tmin', h1, h2, h3⟩ := ih rest (istepOp cfg shuf (c, acc) op).1
      (istepOp cfg shuf (c, acc) op).2 op.time hInv' hrest
    exact ⟨tmin', le_trans (le_of_lt ht) h1, h2, h3⟩

/-- C1 (amended): when store is only called for fingerprints absent from
the map — as on the Resolve path, where a store is always preceded by a
miss — an entry is linked in the LRU list iff some fingerprint maps to it.
(The counterexample shows the unrestricted claim fails: a store over an
existing fingerprint replaces the map binding without unlinking the old
entry.) -/
theorem c1_list_iff_map_amended (cfg : Config)
    (shuf : List Resource → List Nat → List Resource) (ops : List CacheOp)
    (tmin : Int)
    (hvalid : validOps cfg shuf initState tmin ops = true) :
    ∀ id, id ∈ (runOps cfg shuf initState ops).l ↔
      ∃ k, mapFind k (runOps cfg shuf initState ops).m = some id := by
  obtain ⟨tmin', _, hInv, _⟩ := cacheInv_run cfg shuf cfg.maxSize rfl ops
    [] initState [] tmin (cacheInv_init _ _)
    (by rw [List.append_nil]; exact hvalid)
  rw [irunOps_fst] at hInv
  obtain ⟨_, hIff, hKeys, _, _, _, _, _, _⟩ := hInv
  intro id
  rw [hIff id]
  constructor
  · intro hmem
    obtain ⟨p, hp, hpv⟩ := List.mem_map.mp hmem
    refine ⟨p.1, ?_⟩
    rw [← hpv]
    exact mapFind_of_mem p.1 p.2 _ hKeys hp
  · rintro ⟨k, hk⟩
    exact List.mem_map.mpr ⟨(k, id), mapFind_mem _ _ _ hk, rfl⟩

/-- Witness for C1 (amended): a store followed by a lookup; entry 0 is in
the list and is reachable from a fingerprint. -/
theorem c1_list_iff_map_amended_witness :
    ∃ k, mapFind k
        (runOps cfgSize1 idShuf initState
          [.storeOp (qFix 1) true (msgAttl 10) 10 false 1,
            .lookupOp (qFix 1) true 2]).m = some 0 :=
  (c1_list_iff_map_amended cfgSize1 idShuf
    [.storeOp (qFix 1) true (msgAttl 10) 10 false 1,
      .lookupOp (qFix 1) true 2] 0 (by decide) 0).mp (by decide)

/-- A store into a cache that is not full (or is unbounded) simply adds
the new binding and pushes the new entry to the LRU front. -/
theorem put_no_evict (cfg : Config) (K : Int) (hK : cfg.maxSize = K)
    (c : CacheState) (q : Question) (rd : Bool) (msg : Message) (ttl : Nat)
    (neg : Bool) (now : Int) (hfresh : mapFind ⟨q, rd⟩ c.m = none)
    (hcond : ¬ (0 < K ∧ K < (c.m.length : Int) + 1)) :
    (put cfg c q rd msg ttl neg now).m = (⟨q, rd⟩, c.nextId) :: c.m ∧
    (put cfg c q rd msg ttl neg now).l = c.nextId :: c.l := by
  have hins : mapInsert ⟨q, rd⟩ c.nextId c.m =
      (⟨q, rd⟩, c.nextId) :: c.m := by
    unfold mapInsert
    rw [mapErase_of_none _ _ hfresh]
  unfold put
  dsimp only
  rw [hins]
  rw [if_neg (by
    rw [hK, List.length_cons]
    push_cast
    intro hcon
    exact hcond ⟨hcon.1, hcon.2⟩)]
  exact ⟨rfl, rfl⟩

/-- A store into a full bounded cache whose fingerprint is absent evicts
exactly the LRU tail: the tail is unlinked, its key's binding is deleted,
the map stays at the bound, and — front-to-back order being
newest-to-oldest — the evicted entry is the one whose recorded last access
is strictly the oldest. -/
theorem put_evicts_oldest (cfg : Config) (K tmin now : Int)
    (c : CacheState) (acc : AccMap) (q : Question) (rd : Bool)
    (msg : Message) (ttl : Nat) (neg : Bool) (hK : cfg.maxSize = K)
    (hInv : CacheInv K tmin c acc)
    (hfresh : mapFind ⟨q, rd⟩ c.m = none) (hKpos : 0 < K)
    (hfull : (c.m.length : Int) = K) :
    ∃ hlne : c.l ≠ [],
      listBack (listPushFront c.nextId c.l) = some (c.l.getLast hlne) ∧
      (put cfg c q rd msg ttl neg now).l =
        listRemove (c.l.getLast hlne) (listPushFront c.nextId c.l) ∧
      ((put cfg c q rd msg ttl neg now).m.length : Int) = K ∧
      (∀ v, v ∈ (put cfg c q rd msg ttl neg now).m.map (fun p => p.2) ↔
        (v = c.nextId ∨ v ∈ c.m.map (fun p => p.2)) ∧
          v ≠ c.l.getLast hlne) ∧
      (∀ a ∈ c.l, a ≠ c.l.getLast hlne →
        accGet acc (c.l.getLast hlne) < accGet acc a) := by
  obtain ⟨hNodup, hIff, hKeys, hVals, hKeyOf, hFresh, hAcc, hSorted,
    hBound⟩ := hInv
  have hNidL : c.nextId ∉ c.l := fun hmem =>
    absurd (hFresh _ hmem) (Nat.lt_irrefl _)
  have hNidVals : c.nextId ∉ c.m.map (fun p => p.2) :=
    fun hmem => hNidL ((hIff _).mpr hmem)
  have hKNotKeys : ∀ p ∈ c.m, p.1 ≠ ⟨q, rd⟩ :=
    (mapFind_eq_none_iff _ _).mp hfresh
  have hins : mapInsert ⟨q, rd⟩ c.nextId c.m =
      (⟨q, rd⟩, c.nextId) :: c.m := by
    unfold mapInsert
    rw [mapErase_of_none _ _ hfresh]
  have hKeys' : (((⟨q, rd⟩, c.nextId) :: c.m).map
      (fun p => p.1)).Nodup := by
    rw [List.map_cons, List.nodup_cons]
    exact ⟨fun hmem => by
      obtain ⟨p, hp, hpk⟩ := List.mem_map.mp hmem
      exact hKNotKeys p hp hpk, hKeys⟩
  have hVals' : (((⟨q, rd⟩, c.nextId) :: c.m).map
      (fun p => p.2)).Nodup := by
    rw [List.map_cons, List.nodup_cons]
    exact ⟨hNidVals, hVals⟩
  have hmne : c.m ≠ [] := by
    intro hcon
    rw [hcon] at hfull
    simp at hfull
    exact absurd hfull.symm (Int.ne_of_gt hKpos)
  have hlne : c.l ≠ [] := by
    intro hcon
    obtain ⟨p, hp⟩ := List.exists_mem_of_ne_nil c.m hmne
    have := (hIff p.2).mpr (List.mem_map.mpr ⟨p, hp, rfl⟩)
    rw [hcon] at this
    simp at this
  have hevmem : c.l.getLast hlne ∈ c.l := List.getLast_mem hlne
  have hevne : c.l.getLast hlne ≠ c.nextId :=
    Nat.ne_of_lt (hFresh _ hevmem)
  obtain ⟨pb, hpb, hpbval⟩ :=
    List.mem_map.mp ((hIff (c.l.getLast hlne)).mp hevmem)
  obtain ⟨eb, heb, hebkey⟩ := hKeyOf pb hpb
  rw [hpbval] at heb
  have hpbpair : (pb.1, c.l.getLast hlne) = pb := by
    rw [← hpbval]
  have hpbm' : (eb.key, c.l.getLast hlne) ∈
      (⟨q, rd⟩, c.nextId) :: c.m := by
    rw [hebkey]
    exact List.mem_cons_of_mem _ (hpbpair ▸ hpb)
  refine ⟨hlne, listBack_pushFront _ _ hlne, ?_⟩
  unfold put
  dsimp only
  rw [hins]
  rw [if_pos (by
    rw [hK, List.length_cons]
    push_cast
    exact ⟨hKpos, by rw [← hfull]; exact lt_add_one _⟩)]
  rw [listBack_pushFront _ _ hlne]
  dsimp only
  rw [entsFind_entsInsert_ne _ _ _ _ hevne, heb]
  dsimp only
  refine ⟨rfl, ?_, ?_, ?_⟩
  · have hlen := mapErase_length eb.key (c.l.getLast hlne)
      ((⟨q, rd⟩, c.nextId) :: c.m) hKeys' hpbm'
    rw [List.length_cons] at hlen
    push_cast
    rw [← hfull]
    have : (mapErase eb.key ((⟨q, rd⟩, c.nextId) :: c.m)).length
        = c.m.length := by omega
    rw [this]
  · intro v
    rw [mapErase_vals_iff _ _ _ hKeys' hVals' hpbm' v, List.map_cons,
      List.mem_cons]
  · exact getLast_oldest c.l acc hlne hSorted hNodup

/-- Appending one operation to a run is one step on its final state. -/
theorem runOps_append_single (cfg : Config)
    (shuf : List Resource → List Nat → List Resource) (c : CacheState)
    (pre : List CacheOp) (op : CacheOp) :
    runOps cfg shuf c (pre ++ [op]) =
      stepOp cfg shuf (runOps cfg shuf c pre) op := by
  unfold runOps
  rw [List.foldl_append]
  rfl

/-- Valid all-store runs grow the map to the bound and stay there. -/
theorem allStores_length (cfg : Config)
    (shuf : List Resource → List Nat → List Resource) (K : Int)
    (hK : cfg.maxSize = K) (hKpos : 0 < K) :
    ∀ (ops : List CacheOp) (c : CacheState) (acc : AccMap) (tmin : Int),
      CacheInv K tmin c acc →
      validOps cfg shuf c tmin ops = true →
      ops.all CacheOp.isStore = true →
      ((runOps cfg shuf c ops).m.length : Int) =
        min ((c.m.length : Int) + ops.length) K := by
  intro ops
  induction ops with
  | nil =>
    intro c acc tmin hInv _ _
    obtain ⟨_, _, _, _, _, _, _, _, hBound⟩ := hInv
    simp only [runOps, List.foldl_nil, List.length_nil, Nat.cast_zero,
      add_zero]
    exact (min_eq_left (hBound hKpos)).symm
  | cons op ops ih =>
    intro c acc tmin hInv hvalid hall
    rw [List.all_cons, Bool.and_eq_true] at hall
    cases op with
    | lookupOp q rd now => simp [CacheOp.isStore] at hall
    | storeOp q rd msg ttl neg now =>
      unfold validOps at hvalid
      rw [Bool.and_eq_true, Bool.and_eq_true] at hvalid
      obtain ⟨⟨ht, hside⟩, hrest⟩ := hvalid
      rw [decide_eq_true_eq] at ht
      have hfresh : mapFind ⟨q, rd⟩ c.m = none :=
        Option.isNone_iff_eq_none.mp hside
      have hInv' := cacheInv_store cfg shuf K tmin now c acc q rd msg ttl
        neg hK hInv ht hfresh
      have hstep : runOps cfg shuf c
          (CacheOp.storeOp q rd msg ttl neg now :: ops) =
          runOps cfg shuf (put cfg c q rd msg ttl neg now) ops := rfl
      have hbound : (c.m.length : Int) ≤ K := by
        obtain ⟨_, _, _, _, _, _, _, _, hBound⟩ := hInv
        exact hBound hKpos
      by_cases hfull : (c.m.length : Int) = K
      · obtain ⟨hlne, _, _, hlen, _, _⟩ := put_evicts_oldest cfg K tmin
          now c acc q rd msg ttl neg hK hInv hfresh hKpos hfull
        rw [hstep, ih (put cfg c q rd msg ttl neg now)
          (accSet acc c.nextId now) now hInv' hrest hall.2, hlen]
        rw [hfull, List.length_cons]
        push_cast
        rw [min_eq_right (by omega), min_eq_right (by omega)]
      · obtain ⟨hm', _⟩ := put_no_evict cfg K hK c q rd msg ttl neg now
          hfresh (fun hcon => hfull (by omega))
        rw [hstep, ih (put cfg c q rd msg ttl neg now)
          (accSet acc c.nextId now) now hInv' hrest hall.2, hm']
        rw [List.length_cons, List.length_cons]
        push_cast
        ring_nf

/-- C2 (amended): when store is only called for fingerprints absent from
the map — as the Resolve path guarantees — a cache with `MaxSize = K > 0`
keeps at most K map entries between calls; N distinct stores leave exactly
`min N K` entries (so exactly K once N > K); and a store into a full cache
evicts exactly the entry at the back of the LRU list, which is the entry
whose recorded last access (lookup or store) is the oldest.  (The
counterexample shows the unrestricted claim fails: duplicate stores leave
stale LRU entries that later make an eviction delete the wrong binding or
none.) -/
theorem c2_lru_bound_amended (cfg : Config)
    (shuf : List Resource → List Nat → List Resource) (K : Int)
    (ops : List CacheOp) (tmin : Int) (hK : cfg.maxSize = K)
    (hKpos : 0 < K)
    (hvalid : validOps cfg shuf initState tmin ops = true) :
    ((runOps cfg shuf initState ops).m.length : Int) ≤ K ∧
    (ops.all CacheOp.isStore = true →
      ((runOps cfg shuf initState ops).m.length : Int) =
        min (ops.length : Int) K) ∧
    (∀ pre q rd msg ttl neg now post,
      ops = pre ++ CacheOp.storeOp q rd msg ttl neg now :: post →
      ((runOps cfg shuf initState pre).m.length : Int) = K →
      ∃ hlne : (runOps cfg shuf initState pre).l ≠ [],
        listBack (listPushFront (runOps cfg shuf initState pre).nextId
            (runOps cfg shuf initState pre).l) =
          some ((runOps cfg shuf initState pre).l.getLast hlne) ∧
        (runOps cfg shuf initState
            (pre ++ [CacheOp.storeOp q rd msg ttl neg now])).l =
          listRemove ((runOps cfg shuf initState pre).l.getLast hlne)
            (listPushFront (runOps cfg shuf initState pre).nextId
              (runOps cfg shuf initState pre).l) ∧
        ((runOps cfg shuf initState
            (pre ++ [CacheOp.storeOp q rd msg ttl neg now])).m.length
          : Int) = K ∧
        (∀ a ∈ (runOps cfg shuf initState pre).l,
          a ≠ (runOps cfg shuf initState pre).l.getLast hlne →
          accGet (irunOps cfg shuf (initState, []) pre).2
              ((runOps cfg shuf initState pre).l.getLast hlne) <
            accGet (irunOps cfg shuf (initState, []) pre).2 a)) := by
  refine ⟨?_, ?_, ?_⟩
  · obtain ⟨tmin', _, hInv, _⟩ := cacheInv_run cfg shuf K hK ops []
      initState [] tmin (cacheInv_init _ _)
      (by rw [List.append_nil]; exact hvalid)
    rw [irunOps_fst] at hInv
    obtain ⟨_, _, _, _, _, _, _, _, hBound⟩ := hInv
    exact hBound hKpos
  · intro hall
    have h := allStores_length cfg shuf K hK hKpos ops initState [] tmin
      (cacheInv_init _ _) hvalid hall
    rw [h]
    norm_num [initState]
  · intro pre q rd msg ttl neg now post hops hfull
    rw [hops] at hvalid
    obtain ⟨tmin', _, hInv, hrestvalid⟩ := cacheInv_run cfg shuf K hK pre
      (CacheOp.storeOp q rd msg ttl neg now :: post) initState [] tmin
      (cacheInv_init _ _) hvalid
    unfold validOps at hrestvalid
    rw [Bool.and_eq_true, Bool.and_eq_true] at hrestvalid
    obtain ⟨⟨_, hside⟩, _⟩ := hrestvalid
    rw [irunOps_fst] at hInv hside
    have hfresh : mapFind ⟨q, rd⟩ (runOps cfg shuf initState pre).m =
        none := Option.isNone_iff_eq_none.mp hside
    obtain ⟨hlne, hback, hl, hlen, _, hold⟩ := put_evicts_oldest cfg K
      tmin' now (runOps cfg shuf initState pre)
      (irunOps cfg shuf (initState, []) pre).2 q rd msg ttl neg hK hInv
      hfresh hKpos hfull
    refine ⟨hlne, hback, ?_, ?_, hold⟩
    · rw [runOps_append_single]
      exact hl
    · rw [runOps_append_single]
      exact hlen

/-- Witness for C2 (amended): two distinct stores against `MaxSize = 1`
leave exactly `min 2 1 = 1` entry. -/
theorem c2_lru_bound_amended_witness :
    ((runOps cfgSize1 idShuf initState
        [.storeOp (qFix 1) true (msgAttl 10) 10 false 1,
          .storeOp (qFix 2) true (msgAttl 10) 10 false 2]).m.length
      : Int) ≤ 1 ∧
    ((runOps cfgSize1 idShuf initState
        [.storeOp (qFix 1) true (msgAttl 10) 10 false 1,
          .storeOp (qFix 2) true (msgAttl 10) 10 false 2]).m.length
      : Int) = 1 := by
  have h := c2_lru_bound_amended cfgSize1 idShuf 1
    [.storeOp (qFix 1) true (msgAttl 10) 10 false 1,
      .storeOp (qFix 2) true (msgAttl 10) 10 false 2] 0 rfl (by decide)
    (by decide)
  refine ⟨h.1, ?_⟩
  rw [h.2.1 (by decide)]
  decide
